import Mathlib

/-!
A shallow embedding of the crawl engine of `src/Tor-Enabled-Web-Crawler.py`.

Python strings are modelled as `List Char`.  The definitions below are
translated from the source file: `normalize_url`, `get_domain`, the pure
path computation of `save_html`, the scheme filtering and normalisation of
`extract_links`, and the breadth-first loop of `crawl`.  The
`urllib.parse` helpers the source calls (`urlparse`, `urldefrag`,
`urlunparse`) are modelled after the standard library's splitting
algorithm (scheme, then netloc, then fragment, then query, then params):
`urlsplitL`/`urlparseL` are the success path, and `urlsplitX`/`urlparseX`
/`normalize_urlX` additionally model `urlsplit`'s input cleansing and its
`ValueError` paths as `Option`, with the two checks that delegate to
external modules (`ipaddress`/`re`, the NFKC table of `unicodedata`)
abstracted as oracles.  External collaborators (the HTTP session, robots
oracle, BeautifulSoup anchor extraction together with `urljoin`) are
supplied by an `Env` record, matching the spec's collaborator boundary.
-/

namespace Crawler

/-- Convert a Lean string literal to the `List Char` model of Python strings. -/
def toL (s : String) : List Char := s.toList

/-- Characters allowed in a URL scheme: ASCII letters, digits, `+`, `-`, `.`
(the `scheme_chars` of `urllib.parse`). -/
def isSchemeChar (c : Char) : Bool :=
  c.isAlpha || c.isDigit || c == '+' || c == '-' || c == '.'

/-- A valid scheme prefix: nonempty, first character an ASCII letter, and
every character a scheme character (the check `urlsplit` performs before
accepting the text in front of the first `:` as a scheme). -/
def schemeOk : List Char → Bool
  | [] => false
  | c :: cs => c.isAlpha && (c :: cs).all isSchemeChar

/-- Split off the scheme as `urlsplit` does: the text before the first `:`
is the scheme (lowercased) when it validates, otherwise there is no scheme. -/
def splitScheme (s : List Char) : List Char × List Char :=
  if s.contains ':' && schemeOk (s.takeWhile (fun c => c != ':')) then
    ((s.takeWhile (fun c => c != ':')).map Char.toLower,
      (s.dropWhile (fun c => c != ':')).tail)
  else ([], s)

/-- A character that terminates the netloc in `urlsplit`. -/
def netlocStop (c : Char) : Bool := c == '/' || c == '?' || c == '#'

/-- Split off the netloc as `urlsplit` does: only after a literal `//`,
running to the first `/`, `?` or `#`. -/
def splitNetloc (s : List Char) : List Char × List Char :=
  if s.take 2 = ['/', '/'] then
    ((s.drop 2).takeWhile (fun c => !netlocStop c),
      (s.drop 2).dropWhile (fun c => !netlocStop c))
  else ([], s)

/-- Split a list at the first occurrence of `c`: `(before, after)`; the whole
list and `[]` when `c` does not occur (Python's `str.split(c, 1)`). -/
def splitOnChar (c : Char) (s : List Char) : List Char × List Char :=
  if s.contains c then
    (s.takeWhile (fun a => a != c), (s.dropWhile (fun a => a != c)).tail)
  else (s, [])

/-- Split a list just after its last `/`: `some (prefix ending in '/', rest)`,
or `none` when there is no `/`. -/
def splitLastSlash : List Char → Option (List Char × List Char)
  | [] => none
  | c :: cs =>
    match splitLastSlash cs with
    | some (a, b) => some (c :: a, b)
    | none => if c = '/' then some ([c], cs) else none

/-- Strip the params from a path as `urlparse` does via `_splitparams`:
when the path holds a `;`, split at the first `;` at or after the last `/`
(at the first `;` overall when there is no `/`). -/
def splitParams (p : List Char) : List Char × List Char :=
  if p.contains ';' then
    match splitLastSlash p with
    | some (a, b) =>
      if b.contains ';' then (a ++ (splitOnChar ';' b).1, (splitOnChar ';' b).2)
      else (p, [])
    | none => splitOnChar ';' p
  else (p, [])

/-- The six components `urlparse` returns. -/
structure Parts where
  scheme : List Char
  netloc : List Char
  path : List Char
  params : List Char
  query : List Char
  fragment : List Char
  deriving DecidableEq

/-- Model of `urllib.parse.urlsplit` (params left empty): scheme, then
netloc, then fragment, then query. -/
def urlsplitL (s : List Char) : Parts :=
  let p1 := splitScheme s
  let p2 := splitNetloc p1.2
  let p3 := splitOnChar '#' p2.2
  let p4 := splitOnChar '?' p3.1
  ⟨p1.1, p2.1, p4.1, [], p4.2, p3.2⟩

/-- The schemes for which `urlparse` splits params (`uses_params` of
`urllib.parse`, which contains the empty scheme). -/
def usesParams (scheme : List Char) : Bool :=
  [toL "", toL "ftp", toL "hdl", toL "prospero", toL "http", toL "imap",
    toL "https", toL "shttp", toL "rtsp", toL "rtsps", toL "rtspu",
    toL "sip", toL "sips", toL "mms", toL "sftp", toL "tel"].contains scheme

/-- Model of `urllib.parse.urlparse`: `urlsplit`, then params split off the
path when the scheme is one of `uses_params`. -/
def urlparseL (s : List Char) : Parts :=
  let u := urlsplitL s
  if usesParams u.scheme then
    ⟨u.scheme, u.netloc, (splitParams u.path).1, (splitParams u.path).2,
      u.query, u.fragment⟩
  else u

/-- The schemes for which `urlunsplit` restores a `//` (`uses_netloc` of
`urllib.parse`; the empty scheme is in the Python list but the condition
below also requires a nonempty scheme, as the Python code does). -/
def usesNetloc (scheme : List Char) : Bool :=
  [toL "", toL "ftp", toL "http", toL "gopher", toL "nntp", toL "telnet",
    toL "imap", toL "wais", toL "file", toL "mms", toL "https", toL "shttp",
    toL "snews", toL "prospero", toL "rtsp", toL "rtsps", toL "rtspu",
    toL "rsync", toL "svn", toL "svn+ssh", toL "sftp", toL "nfs",
    toL "git", toL "git+ssh", toL "ws", toL "wss"].contains scheme

/-- Model of `urllib.parse.urlunsplit`. -/
def urlunsplitL (scheme netloc url query fragment : List Char) : List Char :=
  let u1 :=
    if netloc ≠ [] ∨
        (scheme ≠ [] ∧ usesNetloc scheme ∧ url.take 2 ≠ ['/', '/']) then
      ['/', '/'] ++ netloc ++
        (if url ≠ [] ∧ url.take 1 ≠ ['/'] then '/' :: url else url)
    else url
  let u2 := if scheme ≠ [] then scheme ++ ':' :: u1 else u1
  let u3 := if query ≠ [] then u2 ++ '?' :: query else u2
  if fragment ≠ [] then u3 ++ '#' :: fragment else u3

/-- Model of `urllib.parse.urlunparse`: params rejoined to the path with `;`,
then `urlunsplit`. -/
def urlunparseL (scheme netloc path params query fragment : List Char) :
    List Char :=
  urlunsplitL scheme netloc
    (if params ≠ [] then path ++ ';' :: params else path) query fragment

/-- Model of `urllib.parse.urldefrag` as `normalize_url` uses it (keeping the
URL part): when the string holds a `#`, parse it and rebuild it without the
fragment; otherwise return it unchanged. -/
def urldefragL (s : List Char) : List Char :=
  if s.contains '#' then
    let u := urlparseL s
    urlunparseL u.scheme u.netloc u.path u.params u.query []
  else s

/-- `normalize_url` of the source: drop the fragment, re-parse, default the
scheme to `http` and the path to `/`, and rebuild `scheme://netloc + path`. -/
def normalize_url (s : List Char) : List Char :=
  let s1 := urldefragL s
  let u := urlparseL s1
  let sch := if u.scheme = [] then toL "http" else u.scheme
  let pth := if u.path = [] then ['/'] else u.path
  sch ++ ':' :: '/' :: '/' :: (u.netloc ++ pth)

/-- `get_domain` of the source: the lowercased netloc of the parsed URL. -/
def get_domain (s : List Char) : List Char :=
  (urlparseL s).netloc.map Char.toLower

/-- `os.path.join(a, b)` for the path shapes `save_html` produces (posix
join of one directory and one relative or absolute component). -/
def pathJoin (a b : List Char) : List Char :=
  if b.take 1 = ['/'] then b
  else if a = [] ∨ a.getLast? = some '/' then a ++ b
  else a ++ '/' :: b

/-- The file path `save_html` computes (its pure part; the write itself is a
storage effect): netloc plus the path with `/` replaced by `_`, `"index"`
appended when empty or ending in `_`, extension `.html`, name truncated to
200 characters, joined to the output directory. -/
def save_html_path (outputDir url : List Char) : List Char :=
  let u := urlparseL url
  let safe0 := u.netloc ++ u.path.map (fun c => if c = '/' then '_' else c)
  let safe :=
    if safe0 = [] ∨ safe0.getLast? = some '_' then safe0 ++ toL "index"
    else safe0
  pathJoin outputDir ((safe ++ toL ".html").take 200)

/-- A classified HTTP response of the session collaborator: either a reply
with status code, `Content-Type` header and body, or a raised
`RequestException` carrying its exception-class name. -/
inductive Response where
  | ok (status : Nat) (ctype : List Char) (body : List Char)
  | exn (kind : List Char)

/-- The external collaborators `crawl` uses, per the spec's interface
boundary: the robots permission oracle (`is_allowed` with the parsed
robots file and user agent fixed), the HTTP GET, and the anchor targets
BeautifulSoup plus `urljoin` produce from a page body (absolute URL
strings, before the source's own scheme filter and normalisation). -/
structure Env where
  allowed : List Char → Bool
  fetch : List Char → Response
  hrefs : List Char → List Char → List (List Char)

/-- The configuration surface of `crawl`: start URL (raw), max depth, page
budget, whether robots.txt is respected, output directory.  The delay value
and proxy flag do not alter control flow and are not needed here; the
sleep's occurrence is recorded in the state. -/
structure Config where
  rawStart : List Char
  depth : Nat
  maxPages : Nat
  respectRobots : Bool
  outputDir : List Char

/-- The normalized seed, as `crawl` computes it first thing. -/
def startUrl (cfg : Config) : List Char := normalize_url cfg.rawStart

/-- The status field of one audit-log row: an integer HTTP status, the
literal `robots_blocked`, or `error:<ExceptionKind>`. -/
inductive Status where
  | code (n : Nat)
  | robotsBlocked
  | error (kind : List Char)
  deriving DecidableEq

/-- One CSV row of the audit log: `url, status_code, content_type,
saved_file`. -/
structure Row where
  url : List Char
  status : Status
  ctype : List Char
  savedFile : List Char
  deriving DecidableEq

/-- The mutable state of the crawl loop: the frontier queue of
`(url, depth)` pairs, the visited set (a list used only through membership
and insertion), the processed counter, the audit log in append order, and
the number of `time.sleep(delay)` calls performed. -/
structure CrawlState where
  queue : List (List Char × Nat)
  visited : List (List Char)
  processed : Nat
  log : List Row
  sleeps : Nat
  deriving DecidableEq

/-- `extract_links` of the source, on the collaborator-produced absolute
candidate strings: keep those whose parsed scheme is `http` or `https`,
normalize each.  (The Python function collects them into a `set`; the
model keeps discovery order, which no claim depends on, and duplicates,
which the visited check discards at dequeue.) -/
def extract_links (env : Env) (base body : List Char) : List (List Char) :=
  ((env.hrefs base body).filter (fun u =>
      (urlparseL u).scheme = toL "http" ∨ (urlparseL u).scheme = toL "https")).map
    normalize_url

/-- One execution of the body of the `while` loop of `crawl`, on a state
whose queue is nonempty: pop the head; discard it silently when already
visited or deeper than the max depth; otherwise either log
`robots_blocked` and mark visited (without touching `processed` or
sleeping — the Python `continue` skips both), or fetch: on a reply, save
the body when the status is exactly 200 and the lowercased content type
contains `text/html`, extract and admit links when additionally the depth
is below the max (a link is admitted when not yet visited and its
`get_domain` ends with the seed's `get_domain`), and log the row; on a
`RequestException`, log `error:<kind>`; both fetch outcomes then mark
visited, bump `processed` and sleep. -/
def crawlStep (cfg : Config) (env : Env) (s : CrawlState) : CrawlState :=
  match s.queue with
  | [] => s
  | (url, level) :: rest =>
    if url ∈ s.visited ∨ level > cfg.depth then
      { s with queue := rest }
    else if cfg.respectRobots && !env.allowed url then
      { s with
          queue := rest,
          log := s.log ++ [⟨url, Status.robotsBlocked, [], []⟩],
          visited := url :: s.visited }
    else
      match env.fetch url with
      | Response.ok status ctype body =>
        let saved :=
          if status = 200 ∧ toL "text/html" <:+: ctype.map Char.toLower then
            save_html_path cfg.outputDir url
          else []
        let admitted :=
          if (status = 200 ∧ toL "text/html" <:+: ctype.map Char.toLower) ∧
              level < cfg.depth then
            (extract_links env url body).filter (fun l =>
              l ∉ s.visited ∧ (get_domain (startUrl cfg)) <:+ get_domain l)
          else []
        { queue := rest ++ admitted.map (fun l => (l, level + 1)),
          visited := url :: s.visited,
          processed := s.processed + 1,
          log := s.log ++ [⟨url, Status.code status, ctype, saved⟩],
          sleeps := s.sleeps + 1 }
      | Response.exn kind =>
        { queue := rest,
          visited := url :: s.visited,
          processed := s.processed + 1,
          log := s.log ++ [⟨url, Status.error kind, [], []⟩],
          sleeps := s.sleeps + 1 }

/-- The `while queue and processed < max_pages` loop, fuel-indexed: every
run of the Python loop is `crawlLoop` for a large enough fuel, and every
invariant below holds for all fuels. -/
def crawlLoop (cfg : Config) (env : Env) : Nat → CrawlState → CrawlState
  | 0, s => s
  | fuel + 1, s =>
    if s.queue ≠ [] ∧ s.processed < cfg.maxPages then
      crawlLoop cfg env fuel (crawlStep cfg env s)
    else s

/-- The initial state of `crawl`: the normalized seed at depth 0, nothing
visited, nothing processed, empty log. -/
def initState (cfg : Config) : CrawlState :=
  { queue := [(startUrl cfg, 0)], visited := [], processed := 0,
    log := [], sleeps := 0 }

/-- `crawl` of the source, as a function of configuration, collaborators
and fuel. -/
def crawl (cfg : Config) (env : Env) (fuel : Nat) : CrawlState :=
  crawlLoop cfg env fuel (initState cfg)

/-! Concrete scenario data used to instantiate the theorems below. -/

/-- A concrete seed URL, already in normal form. -/
def exSeed : List Char := toL "http://example.com/"

/-- Configuration: seed `http://example.com/`, depth 1, budget 10, robots
ignored. -/
def cfgNoRobots : Config := ⟨exSeed, 1, 10, false, toL "out"⟩

/-- Configuration: seed `http://example.com/`, depth 0, budget 10, robots
ignored. -/
def cfgDepth0 : Config := ⟨exSeed, 0, 10, false, toL "out"⟩

/-- Configuration: seed `http://example.com/`, depth 1, budget 2, robots
respected. -/
def cfgBudget2 : Config := ⟨exSeed, 1, 2, true, toL "out"⟩

/-- Configuration: seed `http://example.com/`, depth 1, budget 1, robots
respected. -/
def cfgBudget1 : Config := ⟨exSeed, 1, 1, true, toL "out"⟩

/-- An environment whose robots oracle allows everything, every fetch
replies `200 text/html`, and every page body yields the given anchor
targets. -/
def envAllOk (links : List (List Char)) : Env :=
  ⟨fun _ => true, fun _ => Response.ok 200 (toL "text/html") [], fun _ _ => links⟩

/-- Environment: every page links to the cross-site URL
`http://notexample.com/x` (whose host merely string-ends with the seed
host `example.com`). -/
def envCross : Env := envAllOk [toL "http://notexample.com/x"]

/-- Environment: every page links back to the seed itself. -/
def envSelf : Env := envAllOk [exSeed]

/-- Environment: robots allows only the seed; pages link to two same-site
URLs. -/
def envRobotsOnlySeed : Env :=
  ⟨fun u => decide (u = exSeed),
   fun _ => Response.ok 200 (toL "text/html") [],
   fun _ _ => [toL "http://example.com/a", toL "http://example.com/b"]⟩

/-- Environment: robots blocks everything. -/
def envBlockAll : Env :=
  ⟨fun _ => false, fun _ => Response.exn (toL "Timeout"), fun _ _ => []⟩

/-- Environment: robots allows everything, every fetch raises a timeout. -/
def envTimeout : Env :=
  ⟨fun _ => true, fun _ => Response.exn (toL "Timeout"), fun _ _ => []⟩

/-- Environment: robots allows everything, every fetch replies `404` with
a `text/plain` content type. -/
def envPlain404 : Env :=
  ⟨fun _ => true, fun _ => Response.ok 404 (toL "text/plain") [], fun _ _ => []⟩

/-- The host test the spec's words describe for claim C1: the candidate
host is the seed host itself or a dot-separated subdomain of it.  (Spec
formalisation for comparison; the source's own test is the raw
`endswith` in `crawlStep`.) -/
def specSameSite (candidateHost seedHost : List Char) : Prop :=
  candidateHost = seedHost ∨ ('.' :: seedHost) <:+ candidateHost

/-- The number of audit rows whose status is not `robots_blocked`. -/
def nonBlockedRows (l : List Row) : Nat :=
  (l.filter (fun r => decide (r.status ≠ Status.robotsBlocked))).length

/-- The final path segment: everything after the last `/` (the whole path
when there is no `/`). -/
def lastSegment (p : List Char) : List Char :=
  match splitLastSlash p with
  | some (_, b) => b
  | none => p

/-- The canonical shape `normalize_url` produces: a validated, lowercase
scheme, a netloc free of `/`, `?`, `#`, and a nonempty path free of `?`
and `#` whose final segment holds no `;` when the scheme splits params. -/
def CanonParts (sch n p : List Char) : Prop :=
  schemeOk sch = true ∧ sch.map Char.toLower = sch ∧
  (∀ c ∈ n, netlocStop c = false) ∧
  p ≠ [] ∧ '#' ∉ p ∧ '?' ∉ p ∧
  (usesParams sch = true → ';' ∉ lastSegment p)

/-! Error paths of `urllib.parse`.  `urlsplitL` above is the success path
of CPython 3.11's `urlsplit`.  The real function first lstrips WHATWG
C0-control-or-space characters and removes tab, CR and LF everywhere, and
it can raise `ValueError`: on a netloc with an unbalanced bracket
(`Invalid IPv6 URL`), on a bracketed host `_check_bracketed_host` rejects,
or on a non-ASCII netloc `_checknetloc` rejects.  The `Option`-valued
model below adds those paths (`none` models a raised `ValueError`).  The
two checks that delegate to external modules — the `ipaddress`/`re`
grammar for the bracketed host and the `unicodedata` NFKC table for
`_checknetloc` — are supplied as oracles, matching the collaborator
boundary used for the other external dependencies. -/

/-- The WHATWG C0-control-or-space characters (`chr(0)` to `chr(0x20)`)
that `urlsplit` strips from the left of its input. -/
def isC0OrSpace (c : Char) : Bool := decide (c.toNat ≤ 32)

/-- The unsafe bytes (tab, CR, LF) `urlsplit` removes everywhere. -/
def isUnsafeByte (c : Char) : Bool := c == '\t' || c == '\r' || c == '\n'

/-- The input cleansing `urlsplit` performs before splitting: lstrip the
C0-control-or-space characters, then remove tab, CR and LF everywhere. -/
def cleanseUrl (s : List Char) : List Char :=
  (s.dropWhile isC0OrSpace).filter (fun c => !isUnsafeByte c)

/-- The two `ValueError` checks `urlsplit` delegates to external modules:
`_check_bracketed_host` (the `ipaddress`/`re` grammar for the text inside
netloc brackets) and the NFKC comparison inside `_checknetloc` (the
`unicodedata` table).  Each oracle returns `true` when the corresponding
check raises. -/
structure ParseOracles where
  bracketedHostBad : List Char → Bool
  nfkcBad : List Char → Bool

/-- `_checknetloc`: an empty or all-ASCII netloc always passes; otherwise
the NFKC comparison decides. -/
def checknetlocBad (o : ParseOracles) (n : List Char) : Bool :=
  if n = [] ∨ n.all (fun c => decide (c.toNat ≤ 127)) then false
  else o.nfkcBad n

/-- The bracketed host `urlsplit` extracts for checking:
`netloc.partition('[')[2].partition(']')[0]`. -/
def bracketedHost (n : List Char) : List Char :=
  (splitOnChar ']' (splitOnChar '[' n).2).1

/-- All the ways `urlsplit` rejects a netloc: an unbalanced `[` or `]`
(`Invalid IPv6 URL`), a bracketed host the `_check_bracketed_host` grammar
rejects, or a non-ASCII netloc failing `_checknetloc`. -/
def netlocRejected (o : ParseOracles) (n : List Char) : Bool :=
  (n.contains '[' && !n.contains ']') || (n.contains ']' && !n.contains '[') ||
  (n.contains '[' && n.contains ']' && o.bracketedHostBad (bracketedHost n)) ||
  checknetlocBad o n

/-- Model of `urllib.parse.urlsplit` including its error paths: cleanse,
split, and perform the three `ValueError` checks in source order; `none`
models a raised `ValueError`. -/
def urlsplitX (o : ParseOracles) (s0 : List Char) : Option Parts :=
  let s := cleanseUrl s0
  let p1 := splitScheme s
  let p2 := splitNetloc p1.2
  if (p2.1.contains '[' && !p2.1.contains ']') ||
      (p2.1.contains ']' && !p2.1.contains '[') then none
  else if p2.1.contains '[' && p2.1.contains ']' &&
      o.bracketedHostBad (bracketedHost p2.1) then none
  else
    let p3 := splitOnChar '#' p2.2
    let p4 := splitOnChar '?' p3.1
    if checknetlocBad o p2.1 then none
    else some ⟨p1.1, p2.1, p4.1, [], p4.2, p3.2⟩

/-- Model of `urllib.parse.urlparse` including its error paths. -/
def urlparseX (o : ParseOracles) (s : List Char) : Option Parts :=
  (urlsplitX o s).map (fun u =>
    if usesParams u.scheme then
      ⟨u.scheme, u.netloc, (splitParams u.path).1, (splitParams u.path).2,
        u.query, u.fragment⟩
    else u)

/-- Model of `urllib.parse.urldefrag` including its error paths (the
`'#' in url` test is on the raw input, as in the source). -/
def urldefragX (o : ParseOracles) (s : List Char) : Option (List Char) :=
  if s.contains '#' then
    (urlparseX o s).map (fun u =>
      urlunparseL u.scheme u.netloc u.path u.params u.query [])
  else some s

/-- `normalize_url` of the source over the error-aware parsing model:
`none` models a `ValueError` propagating out of `normalize_url`. -/
def normalize_urlX (o : ParseOracles) (s : List Char) : Option (List Char) :=
  (urldefragX o s).bind (fun s1 =>
    (urlparseX o s1).map (fun u =>
      (if u.scheme = [] then toL "http" else u.scheme) ++
        ':' :: '/' :: '/' ::
        (u.netloc ++ (if u.path = [] then ['/'] else u.path))))

/-- Oracles that never reject, usable at inputs whose netlocs hold no
bracket pair and are ASCII, where neither external check is consulted. -/
def noOracles : ParseOracles := ⟨fun _ => false, fun _ => false⟩

/-!  Branch characterisations of one loop iteration, used throughout. -/

theorem crawlStep_nil {cfg : Config} {env : Env} {s : CrawlState}
    (h : s.queue = []) : crawlStep cfg env s = s := by
  unfold crawlStep
  rw [h]

theorem crawlStep_skip {cfg : Config} {env : Env} {s : CrawlState}
    {url : List Char} {level : Nat} {rest : List (List Char × Nat)}
    (hq : s.queue = (url, level) :: rest)
    (h : url ∈ s.visited ∨ level > cfg.depth) :
    crawlStep cfg env s = { s with queue := rest } := by
  unfold crawlStep
  rw [hq]
  simp only [if_pos h]

theorem crawlStep_blocked {cfg : Config} {env : Env} {s : CrawlState}
    {url : List Char} {level : Nat} {rest : List (List Char × Nat)}
    (hq : s.queue = (url, level) :: rest)
    (h : ¬(url ∈ s.visited ∨ level > cfg.depth))
    (hb : (cfg.respectRobots && !env.allowed url) = true) :
    crawlStep cfg env s =
      { s with queue := rest,
               log := s.log ++ [⟨url, Status.robotsBlocked, [], []⟩],
               visited := url :: s.visited } := by
  unfold crawlStep
  rw [hq]
  simp only [if_neg h, if_pos hb]

theorem crawlStep_fetch_ok {cfg : Config} {env : Env} {s : CrawlState}
    {url : List Char} {level : Nat} {rest : List (List Char × Nat)}
    {status : Nat} {ctype body : List Char}
    (hq : s.queue = (url, level) :: rest)
    (h : ¬(url ∈ s.visited ∨ level > cfg.depth))
    (hb : (cfg.respectRobots && !env.allowed url) = false)
    (hf : env.fetch url = Response.ok status ctype body) :
    crawlStep cfg env s =
      { queue := rest ++
          ((if (status = 200 ∧ toL "text/html" <:+: ctype.map Char.toLower) ∧
               level < cfg.depth then
             (extract_links env url body).filter (fun l =>
               l ∉ s.visited ∧ (get_domain (startUrl cfg)) <:+ get_domain l)
           else []).map (fun l => (l, level + 1))),
        visited := url :: s.visited,
        processed := s.processed + 1,
        log := s.log ++ [⟨url, Status.code status, ctype,
          if status = 200 ∧ toL "text/html" <:+: ctype.map Char.toLower then
            save_html_path cfg.outputDir url
          else []⟩],
        sleeps := s.sleeps + 1 } := by
  unfold crawlStep
  rw [hq]
  simp only [if_neg h, hb, Bool.false_eq_true, if_false, hf]

theorem crawlStep_fetch_exn {cfg : Config} {env : Env} {s : CrawlState}
    {url : List Char} {level : Nat} {rest : List (List Char × Nat)}
    {kind : List Char}
    (hq : s.queue = (url, level) :: rest)
    (h : ¬(url ∈ s.visited ∨ level > cfg.depth))
    (hb : (cfg.respectRobots && !env.allowed url) = false)
    (hf : env.fetch url = Response.exn kind) :
    crawlStep cfg env s =
      { queue := rest,
        visited := url :: s.visited,
        processed := s.processed + 1,
        log := s.log ++ [⟨url, Status.error kind, [], []⟩],
        sleeps := s.sleeps + 1 } := by
  unfold crawlStep
  rw [hq]
  simp only [if_neg h, hb, Bool.false_eq_true, if_false, hf]

/-- Any predicate preserved by one guarded iteration is an invariant of the
whole loop. -/
theorem crawlLoop_invariant (cfg : Config) (env : Env) (P : CrawlState → Prop)
    (hstep : ∀ s, s.queue ≠ [] → s.processed < cfg.maxPages →
      P s → P (crawlStep cfg env s)) :
    ∀ (fuel : Nat) (s : CrawlState), P s → P (crawlLoop cfg env fuel s) := by
  intro fuel
  induction fuel with
  | zero => intro s h; simpa [crawlLoop] using h
  | succ n ih =>
    intro s h
    rw [crawlLoop]
    by_cases hc : s.queue ≠ [] ∧ s.processed < cfg.maxPages
    · rw [if_pos hc]
      exact ih _ (hstep s hc.1 hc.2 h)
    · rw [if_neg hc]
      exact h

/-- `os.path.join` of a directory and a nonempty name is nonempty. -/
theorem pathJoin_ne_nil {a b : List Char} (h : b ≠ []) : pathJoin a b ≠ [] := by
  unfold pathJoin
  split
  · exact h
  · split
    · intro hc
      exact h (List.append_eq_nil.mp hc).2
    · simp

/-- The stored path `save_html` computes is never the empty string. -/
theorem save_html_path_ne_nil (dir url : List Char) :
    save_html_path dir url ≠ [] := by
  unfold save_html_path
  apply pathJoin_ne_nil
  intro hc
  rw [List.take_eq_nil_iff] at hc
  rcases hc with hc | hc
  · exact absurd hc (by norm_num)
  · rcases List.append_eq_nil.mp hc with ⟨-, h2⟩
    simp [toL] at h2

/-- Preservation of the domain-scoping invariant by one iteration: every
queued URL and every logged URL has the seed's domain as a suffix of its
domain. -/
theorem scope_preserved (cfg : Config) (env : Env) (s : CrawlState)
    (h : (∀ p ∈ s.queue, get_domain (startUrl cfg) <:+ get_domain p.1) ∧
         (∀ r ∈ s.log, get_domain (startUrl cfg) <:+ get_domain r.url)) :
    (∀ p ∈ (crawlStep cfg env s).queue,
        get_domain (startUrl cfg) <:+ get_domain p.1) ∧
    (∀ r ∈ (crawlStep cfg env s).log,
        get_domain (startUrl cfg) <:+ get_domain r.url) := by
  match hq : s.queue with
  | [] => rw [crawlStep_nil hq]; exact h
  | (url, level) :: rest =>
    have hurl : get_domain (startUrl cfg) <:+ get_domain url :=
      h.1 (url, level) (by rw [hq]; exact List.mem_cons_self _ _)
    have hrest : ∀ p ∈ rest, get_domain (startUrl cfg) <:+ get_domain p.1 :=
      fun p hp => h.1 p (by rw [hq]; exact List.mem_cons_of_mem _ hp)
    by_cases hskip : url ∈ s.visited ∨ level > cfg.depth
    · rw [crawlStep_skip hq hskip]
      exact ⟨hrest, h.2⟩
    · by_cases hb : (cfg.respectRobots && !env.allowed url) = true
      · rw [crawlStep_blocked hq hskip hb]
        refine ⟨hrest, fun r hr => ?_⟩
        rcases List.mem_append.mp hr with h1 | h1
        · exact h.2 r h1
        · simp only [List.mem_singleton] at h1
          subst h1
          exact hurl
      · rw [Bool.not_eq_true] at hb
        cases hf : env.fetch url with
        | ok status ctype body =>
          rw [crawlStep_fetch_ok hq hskip hb hf]
          constructor
          · intro p hp
            rcases List.mem_append.mp hp with h1 | h1
            · exact hrest p h1
            · rcases List.mem_map.mp h1 with ⟨l, hl, rfl⟩
              revert hl
              split
              · intro hl
                have := (List.mem_filter.mp hl).2
                simp only [decide_eq_true_eq] at this
                exact this.2
              · intro hl
                exact absurd hl (List.not_mem_nil l)
          · intro r hr
            rcases List.mem_append.mp hr with h1 | h1
            · exact h.2 r h1
            · simp only [List.mem_singleton] at h1
              subst h1
              exact hurl
        | exn kind =>
          rw [crawlStep_fetch_exn hq hskip hb hf]
          refine ⟨hrest, fun r hr => ?_⟩
          rcases List.mem_append.mp hr with h1 | h1
          · exact h.2 r h1
          · simp only [List.mem_singleton] at h1
            subst h1
            exact hurl

/-- Appending one row adds one to the non-blocked count exactly when the
row is not `robots_blocked`. -/
theorem nonBlockedRows_append_one (l : List Row) (r : Row) :
    nonBlockedRows (l ++ [r]) =
      nonBlockedRows l + (if r.status = Status.robotsBlocked then 0 else 1) := by
  unfold nonBlockedRows
  rw [List.filter_append, List.length_append]
  congr 1
  by_cases hr : r.status = Status.robotsBlocked
  · simp [hr]
  · simp [hr]

/-- Preservation of the budget invariant by one guarded iteration: the
non-blocked rows are counted by `processed`, which stays within the
budget. -/
theorem budget_preserved (cfg : Config) (env : Env) (s : CrawlState)
    (hproc : s.processed < cfg.maxPages)
    (h : nonBlockedRows s.log ≤ s.processed ∧ s.processed ≤ cfg.maxPages) :
    nonBlockedRows (crawlStep cfg env s).log ≤ (crawlStep cfg env s).processed ∧
      (crawlStep cfg env s).processed ≤ cfg.maxPages := by
  match hq : s.queue with
  | [] => rw [crawlStep_nil hq]; exact h
  | (url, level) :: rest =>
    by_cases hskip : url ∈ s.visited ∨ level > cfg.depth
    · rw [crawlStep_skip hq hskip]; exact h
    · by_cases hb : (cfg.respectRobots && !env.allowed url) = true
      · rw [crawlStep_blocked hq hskip hb]
        refine ⟨?_, h.2⟩
        have h1 := h.1
        rw [nonBlockedRows_append_one]
        simp only [if_pos rfl, Nat.add_zero]
        exact h1
      · rw [Bool.not_eq_true] at hb
        cases hf : env.fetch url with
        | ok status ctype body =>
          rw [crawlStep_fetch_ok hq hskip hb hf]
          refine ⟨?_, hproc⟩
          have h1 := h.1
          rw [nonBlockedRows_append_one]
          simp only [Status.code.injEq]
          simp
          omega
        | exn kind =>
          rw [crawlStep_fetch_exn hq hskip hb hf]
          refine ⟨?_, hproc⟩
          have h1 := h.1
          rw [nonBlockedRows_append_one]
          simp
          omega

/-- Preservation of the sleep-accounting invariant by one iteration: the
sleeps performed so far equal the non-blocked rows logged so far. -/
theorem sleeps_preserved (cfg : Config) (env : Env) (s : CrawlState)
    (h : s.sleeps = nonBlockedRows s.log) :
    (crawlStep cfg env s).sleeps = nonBlockedRows (crawlStep cfg env s).log := by
  match hq : s.queue with
  | [] => rw [crawlStep_nil hq]; exact h
  | (url, level) :: rest =>
    by_cases hskip : url ∈ s.visited ∨ level > cfg.depth
    · rw [crawlStep_skip hq hskip]; exact h
    · by_cases hb : (cfg.respectRobots && !env.allowed url) = true
      · rw [crawlStep_blocked hq hskip hb]
        rw [nonBlockedRows_append_one]
        simp only [if_pos rfl, Nat.add_zero]
        exact h
      · rw [Bool.not_eq_true] at hb
        cases hf : env.fetch url with
        | ok status ctype body =>
          rw [crawlStep_fetch_ok hq hskip hb hf]
          rw [nonBlockedRows_append_one]
          simp [h]
        | exn kind =>
          rw [crawlStep_fetch_exn hq hskip hb hf]
          rw [nonBlockedRows_append_one]
          simp [h]

/-- Preservation of the dedup invariant by one iteration: logged URLs are
pairwise distinct and all already visited. -/
theorem dedup_preserved (cfg : Config) (env : Env) (s : CrawlState)
    (h : (s.log.map Row.url).Nodup ∧ ∀ u ∈ s.log.map Row.url, u ∈ s.visited) :
    ((crawlStep cfg env s).log.map Row.url).Nodup ∧
      ∀ u ∈ (crawlStep cfg env s).log.map Row.url,
        u ∈ (crawlStep cfg env s).visited := by
  match hq : s.queue with
  | [] => rw [crawlStep_nil hq]; exact h
  | (url, level) :: rest =>
    by_cases hskip : url ∈ s.visited ∨ level > cfg.depth
    · rw [crawlStep_skip hq hskip]; exact h
    · have hnv : url ∉ s.visited := fun hc => hskip (Or.inl hc)
      have hfresh : url ∉ s.log.map Row.url := fun hc => hnv (h.2 url hc)
      by_cases hb : (cfg.respectRobots && !env.allowed url) = true
      · rw [crawlStep_blocked hq hskip hb]
        constructor
        · simpa using List.Nodup.append h.1 (by simp) (by simpa using hfresh)
        · intro u hu
          simp only [List.map_append] at hu
          rcases List.mem_append.mp hu with h1 | h1
          · exact List.mem_cons_of_mem _ (h.2 u h1)
          · simp at h1
            simp [h1]
      · rw [Bool.not_eq_true] at hb
        cases hf : env.fetch url with
        | ok status ctype body =>
          rw [crawlStep_fetch_ok hq hskip hb hf]
          constructor
          · simpa using List.Nodup.append h.1 (by simp) (by simpa using hfresh)
          · intro u hu
            simp only [List.map_append] at hu
            rcases List.mem_append.mp hu with h1 | h1
            · exact List.mem_cons_of_mem _ (h.2 u h1)
            · simp at h1
              simp [h1]
        | exn kind =>
          rw [crawlStep_fetch_exn hq hskip hb hf]
          constructor
          · simpa using List.Nodup.append h.1 (by simp) (by simpa using hfresh)
          · intro u hu
            simp only [List.map_append] at hu
            rcases List.mem_append.mp hu with h1 | h1
            · exact List.mem_cons_of_mem _ (h.2 u h1)
            · simp at h1
              simp [h1]

/-! The claims. -/

/-- C1, counterexample: the seed is `http://example.com/`; the page links
to `http://notexample.com/x`, whose host is neither the seed host nor a
dot-separated subdomain of it, yet the candidate is enqueued (the source
compares hosts with a bare string `endswith`). -/
theorem C1_cross_site_enqueued :
    (toL "http://notexample.com/x", 1) ∈ (crawl cfgNoRobots envCross 1).queue ∧
    ¬ specSameSite (get_domain (toL "http://notexample.com/x"))
        (get_domain (startUrl cfgNoRobots)) := by
  constructor
  · decide
  · unfold specSameSite
    decide

/-- C1 (amended): every link admitted to the frontier, and every URL that
is fetched or logged, has a (lowercased) host that ends — as a raw string
suffix, not a dot-separated subdomain test — with the seed's host; a
candidate failing that suffix test is never enqueued and never logged. -/
theorem C1_domain_scoping_suffix (cfg : Config) (env : Env) (fuel : Nat) :
    (∀ p ∈ (crawl cfg env fuel).queue,
        get_domain (startUrl cfg) <:+ get_domain p.1) ∧
    (∀ r ∈ (crawl cfg env fuel).log,
        get_domain (startUrl cfg) <:+ get_domain r.url) := by
  refine crawlLoop_invariant cfg env _
    (fun s _ _ h => scope_preserved cfg env s h) fuel (initState cfg) ⟨?_, ?_⟩
  · intro p hp
    simp only [initState, List.mem_singleton] at hp
    subst hp
    exact List.suffix_refl _
  · intro r hr
    simp [initState] at hr

/-- C2, counterexample: with page budget 2, a crawl whose seed page is
fetched and whose two discovered links are both robots-blocked writes 3
audit rows — the blocked path logs a row but never increments the
processed counter compared against the budget. -/
theorem C2_blocked_rows_exceed_budget :
    (crawl cfgBudget2 envRobotsOnlySeed 5).log.length = 3 ∧
    cfgBudget2.maxPages = 2 := by
  decide

/-- C2 (amended): the audit rows whose status is not `robots_blocked`
number at most the page budget; robots-blocked rows are logged without
incrementing the processed counter, so the total row count can exceed the
budget. -/
theorem C2_nonblocked_rows_le_budget (cfg : Config) (env : Env) (fuel : Nat) :
    nonBlockedRows (crawl cfg env fuel).log ≤ cfg.maxPages := by
  have h := crawlLoop_invariant cfg env
    (fun s => nonBlockedRows s.log ≤ s.processed ∧ s.processed ≤ cfg.maxPages)
    (fun s _ hp h => budget_preserved cfg env s hp h) fuel (initState cfg)
    ⟨by simp [nonBlockedRows, initState], by simp [initState]⟩
  exact le_trans h.1 h.2

/-- C3, counterexample: the seed's own page links back to the seed; after
the first iteration the seed — dequeued and in flight — is back in the
frontier at depth 1, because the source only adds a URL to the visited set
after the fetch, not at dequeue time. -/
theorem C3_requeued_while_in_flight :
    (crawl cfgNoRobots envSelf 1).queue = [(exSeed, 1)] ∧
    (crawl cfgNoRobots envSelf 1).log.map Row.url = [exSeed] := by
  decide

/-- C3 (amended): a dequeued, non-discarded target is added to the visited
set by the end of its iteration — after the permission check and the
fetch, not before them — and a target whose URI is already visited is
discarded at dequeue, so a URI re-enqueued by its own link extraction is
never processed a second time. -/
theorem C3_visited_after_processing (cfg : Config) (env : Env)
    (s : CrawlState) (url : List Char) (level : Nat)
    (rest : List (List Char × Nat))
    (hq : s.queue = (url, level) :: rest) :
    (url ∉ s.visited → ¬ level > cfg.depth →
      url ∈ (crawlStep cfg env s).visited) ∧
    (url ∈ s.visited → crawlStep cfg env s = { s with queue := rest }) := by
  constructor
  · intro hnv hnd
    have hskip : ¬(url ∈ s.visited ∨ level > cfg.depth) := by
      rintro (hc | hc)
      exacts [hnv hc, hnd hc]
    by_cases hb : (cfg.respectRobots && !env.allowed url) = true
    · rw [crawlStep_blocked hq hskip hb]
      exact List.mem_cons_self _ _
    · rw [Bool.not_eq_true] at hb
      cases hf : env.fetch url with
      | ok status ctype body =>
        rw [crawlStep_fetch_ok hq hskip hb hf]
        exact List.mem_cons_self _ _
      | exn kind =>
        rw [crawlStep_fetch_exn hq hskip hb hf]
        exact List.mem_cons_self _ _
  · intro hv
    exact crawlStep_skip hq (Or.inl hv)

/-- C3, witness: the amended statement at the concrete self-linking
scenario. -/
theorem C3_visited_after_processing_witness :
    startUrl cfgNoRobots ∉ (initState cfgNoRobots).visited ∧
    startUrl cfgNoRobots ∈
      (crawlStep cfgNoRobots envSelf (initState cfgNoRobots)).visited :=
  ⟨by decide,
    (C3_visited_after_processing cfgNoRobots envSelf (initState cfgNoRobots)
      (startUrl cfgNoRobots) 0 [] rfl).1 (by decide) (by decide)⟩

/-- C4, counterexample: a robots-blocked target is logged but the loop
performs no sleep for it — the blocked path `continue`s before
`time.sleep(delay)`. -/
theorem C4_blocked_without_sleep :
    (crawl cfgBudget1 envBlockAll 1).log =
      [⟨exSeed, Status.robotsBlocked, [], []⟩] ∧
    (crawl cfgBudget1 envBlockAll 1).sleeps = 0 := by
  decide

/-- C4 (amended): the politeness delay is applied exactly after every
fetched or errored target; the robots-blocked path skips it, so the number
of sleeps equals the number of non-`robots_blocked` audit rows. -/
theorem C4_sleep_iff_fetched_or_errored (cfg : Config) (env : Env)
    (fuel : Nat) :
    (crawl cfg env fuel).sleeps = nonBlockedRows (crawl cfg env fuel).log := by
  refine crawlLoop_invariant cfg env
    (fun s => s.sleeps = nonBlockedRows s.log)
    (fun s _ _ h => sleeps_preserved cfg env s h) fuel (initState cfg) ?_
  simp [nonBlockedRows, initState]

/-- C6: in any crawl run, no URI appears in two audit-log rows — every
processed URL enters the visited set when logged, and visited URLs are
discarded at dequeue. -/
theorem C6_no_url_logged_twice (cfg : Config) (env : Env) (fuel : Nat) :
    ((crawl cfg env fuel).log.map Row.url).Nodup :=
  (crawlLoop_invariant cfg env
    (fun s => (s.log.map Row.url).Nodup ∧
      ∀ u ∈ s.log.map Row.url, u ∈ s.visited)
    (fun s _ _ h => dedup_preserved cfg env s h) fuel (initState cfg)
    ⟨by simp [initState], by simp [initState]⟩).1

/-- C7: a target at depth strictly beyond the max depth is discarded
silently (only the queue shrinks; no log row, no visited mark), while a
target at exactly the max depth that passes robots and fetches
`200 text/html` is saved to disk but contributes no new frontier
entries. -/
theorem C7_depth_boundary (cfg : Config) (env : Env) (s : CrawlState)
    (url : List Char) (level : Nat) (rest : List (List Char × Nat))
    (hq : s.queue = (url, level) :: rest) :
    (level > cfg.depth → crawlStep cfg env s = { s with queue := rest }) ∧
    (level = cfg.depth → url ∉ s.visited →
      (cfg.respectRobots && !env.allowed url) = false →
      ∀ status ctype body, env.fetch url = Response.ok status ctype body →
        status = 200 → toL "text/html" <:+: ctype.map Char.toLower →
        crawlStep cfg env s =
          { queue := rest, visited := url :: s.visited,
            processed := s.processed + 1,
            log := s.log ++ [⟨url, Status.code status, ctype,
              save_html_path cfg.outputDir url⟩],
            sleeps := s.sleeps + 1 }) := by
  constructor
  · intro hd
    exact crawlStep_skip hq (Or.inr hd)
  · intro hlv hnv hb status ctype body hf h200 hhtml
    have hskip : ¬(url ∈ s.visited ∨ level > cfg.depth) := by
      rintro (hc | hc)
      exacts [hnv hc, absurd hlv (Nat.ne_of_gt (hlv ▸ hc)).symm]
    rw [crawlStep_fetch_ok hq hskip hb hf]
    subst hlv
    simp [h200, hhtml]

/-- C7, witness: the depth-boundary statement at a concrete depth-0
configuration whose seed page is `200 text/html`. -/
theorem C7_depth_boundary_witness :
    crawlStep cfgDepth0 envSelf (initState cfgDepth0) =
      { queue := [], visited := [startUrl cfgDepth0], processed := 1,
        log := [⟨startUrl cfgDepth0, Status.code 200, toL "text/html",
          save_html_path (toL "out") (startUrl cfgDepth0)⟩],
        sleeps := 1 } := by
  have h := (C7_depth_boundary cfgDepth0 envSelf (initState cfgDepth0)
    (startUrl cfgDepth0) 0 [] rfl).2 rfl (by decide) (by decide)
    200 (toL "text/html") [] rfl rfl (by decide)
  rw [h]
  rfl

/-- C8: on a reply, the body is persisted (nonempty stored path) exactly
when the status is 200 and the lowercased content type contains
`text/html` — link extraction then being further gated only by the depth
bound — and any other status/content-type combination is logged with its
status and content type, an empty stored path, no persistence and no new
frontier entries. -/
theorem C8_persist_iff_200_html (cfg : Config) (env : Env) (s : CrawlState)
    (url : List Char) (level : Nat) (rest : List (List Char × Nat))
    (status : Nat) (ctype body : List Char)
    (hq : s.queue = (url, level) :: rest)
    (hnv : url ∉ s.visited) (hnd : ¬ level > cfg.depth)
    (hb : (cfg.respectRobots && !env.allowed url) = false)
    (hf : env.fetch url = Response.ok status ctype body) :
    ((status = 200 ∧ toL "text/html" <:+: ctype.map Char.toLower) →
      (crawlStep cfg env s).log = s.log ++ [⟨url, Status.code status, ctype,
        save_html_path cfg.outputDir url⟩] ∧
      save_html_path cfg.outputDir url ≠ [] ∧
      (crawlStep cfg env s).queue = rest ++
        ((if level < cfg.depth then
            (extract_links env url body).filter (fun l =>
              l ∉ s.visited ∧ get_domain (startUrl cfg) <:+ get_domain l)
          else []).map (fun l => (l, level + 1)))) ∧
    (¬(status = 200 ∧ toL "text/html" <:+: ctype.map Char.toLower) →
      crawlStep cfg env s =
        { queue := rest, visited := url :: s.visited,
          processed := s.processed + 1,
          log := s.log ++ [⟨url, Status.code status, ctype, []⟩],
          sleeps := s.sleeps + 1 }) := by
  have hskip : ¬(url ∈ s.visited ∨ level > cfg.depth) := by
    rintro (hc | hc)
    exacts [hnv hc, hnd hc]
  rw [crawlStep_fetch_ok hq hskip hb hf]
  constructor
  · intro hcond
    refine ⟨by simp [hcond], save_html_path_ne_nil _ _, ?_⟩
    by_cases hlt : level < cfg.depth
    · simp [hcond, hlt]
    · simp [hcond, hlt]
  · intro hcond
    simp [hcond]

/-- C8, witness: a `404 text/plain` reply is logged with status, content
type and empty stored path. -/
theorem C8_persist_iff_200_html_witness :
    (crawlStep cfgNoRobots envPlain404 (initState cfgNoRobots)).log =
      [⟨startUrl cfgNoRobots, Status.code 404, toL "text/plain", []⟩] := by
  have h := (C8_persist_iff_200_html cfgNoRobots envPlain404
    (initState cfgNoRobots) (startUrl cfgNoRobots) 0 [] 404
    (toL "text/plain") [] rfl (by decide) (by decide) (by decide) rfl).2
    (by decide)
  rw [h]
  rfl

/-- C9: when the fetch raises, the target is logged as `error:<kind>` with
empty content-type and stored-path fields, marked visited (so it is never
retried), the queue simply advances, and the loop state remains well
formed — the run does not terminate. -/
theorem C9_error_logged_loop_continues (cfg : Config) (env : Env)
    (s : CrawlState) (url : List Char) (level : Nat)
    (rest : List (List Char × Nat)) (kind : List Char)
    (hq : s.queue = (url, level) :: rest)
    (hnv : url ∉ s.visited) (hnd : ¬ level > cfg.depth)
    (hb : (cfg.respectRobots && !env.allowed url) = false)
    (hf : env.fetch url = Response.exn kind) :
    crawlStep cfg env s =
      { queue := rest, visited := url :: s.visited,
        processed := s.processed + 1,
        log := s.log ++ [⟨url, Status.error kind, [], []⟩],
        sleeps := s.sleeps + 1 } ∧
    url ∈ (crawlStep cfg env s).visited := by
  have hskip : ¬(url ∈ s.visited ∨ level > cfg.depth) := by
    rintro (hc | hc)
    exacts [hnv hc, hnd hc]
  have heq := crawlStep_fetch_exn hq hskip hb hf
  refine ⟨heq, ?_⟩
  rw [heq]
  exact List.mem_cons_self _ _

/-- C9, witness: a timeout on the seed produces the
`url, error:Timeout, "", ""` row and marks the seed visited. -/
theorem C9_error_logged_loop_continues_witness :
    (crawlStep cfgNoRobots envTimeout (initState cfgNoRobots)).log =
      [⟨startUrl cfgNoRobots, Status.error (toL "Timeout"), [], []⟩] ∧
    startUrl cfgNoRobots ∈
      (crawlStep cfgNoRobots envTimeout (initState cfgNoRobots)).visited := by
  have h := C9_error_logged_loop_continues cfgNoRobots envTimeout
    (initState cfgNoRobots) (startUrl cfgNoRobots) 0 [] (toL "Timeout")
    rfl (by decide) (by decide) (by decide) rfl
  exact ⟨by rw [h.1]; rfl, h.2⟩

theorem contains_eq_false_iff {s : List Char} {c : Char} :
    s.contains c = false ↔ c ∉ s := by
  simp [List.contains]

theorem contains_eq_true_iff {s : List Char} {c : Char} :
    s.contains c = true ↔ c ∈ s := by
  simp [List.contains]

theorem takeWhile_append_stop (p : Char → Bool) (c : Char)
    (hc : p c = false) (a b : List Char) :
    ((a ++ c :: b).takeWhile p = a.takeWhile p) ∧
    ((a ++ c :: b).dropWhile p = a.dropWhile p ++ c :: b) := by
  induction a with
  | nil => simp [List.takeWhile, List.dropWhile, hc]
  | cons x xs ih =>
    by_cases hx : p x = true
    · simp [List.takeWhile_cons, List.dropWhile_cons, hx, ih.1, ih.2]
    · rw [Bool.not_eq_true] at hx
      simp [List.takeWhile_cons, List.dropWhile_cons, hx]

theorem takeWhile_append_all (p : Char → Bool) {a : List Char}
    (ha : ∀ x ∈ a, p x = true) (b : List Char) :
    ((a ++ b).takeWhile p = a ++ b.takeWhile p) ∧
    ((a ++ b).dropWhile p = b.dropWhile p) := by
  induction a with
  | nil => simp
  | cons x xs ih =>
    have hx : p x = true := ha x (List.mem_cons_self _ _)
    have ih' := ih (fun y hy => ha y (List.mem_cons_of_mem _ hy))
    simp [List.takeWhile_cons, List.dropWhile_cons, hx, ih'.1, ih'.2]

theorem takeWhile_eq_self_of_all {p : Char → Bool} {a : List Char}
    (ha : ∀ x ∈ a, p x = true) : a.takeWhile p = a := by
  have h := takeWhile_append_all p ha []
  simpa using h.1

theorem dropWhile_eq_nil_of_all {p : Char → Bool} {a : List Char}
    (ha : ∀ x ∈ a, p x = true) : a.dropWhile p = [] := by
  have h := takeWhile_append_all p ha []
  simpa using h.2

theorem dropWhile_head_spec (p : Char → Bool) (l : List Char) :
    l.dropWhile p = [] ∨
      ∃ c t, l.dropWhile p = c :: t ∧ p c = false := by
  induction l with
  | nil => simp
  | cons x xs ih =>
    by_cases hx : p x = true
    · simpa [List.dropWhile_cons, hx] using ih
    · rw [Bool.not_eq_true] at hx
      exact Or.inr ⟨x, xs, by simp [List.dropWhile_cons, hx], hx⟩

theorem dropWhile_ne_nil_of_mem {c : Char} {a : List Char}
    (h : c ∈ a) : a.dropWhile (fun x => x != c) ≠ [] := by
  intro hc
  have := List.takeWhile_append_dropWhile (p := fun x => x != c) (l := a)
  rw [hc, List.append_nil] at this
  have hc2 : c ∈ List.takeWhile (fun x => x != c) a := by rw [this]; exact h
  have hc3 := List.mem_takeWhile_imp hc2
  simp at hc3

theorem splitOnChar_not_mem {c : Char} {s : List Char} (h : c ∉ s) :
    splitOnChar c s = (s, []) := by
  unfold splitOnChar
  rw [if_neg]
  rw [contains_eq_true_iff]
  exact h

theorem splitOnChar_first {c : Char} {a : List Char} (b : List Char)
    (h : c ∉ a) :
    splitOnChar c (a ++ c :: b) = (a, b) := by
  unfold splitOnChar
  have hall : ∀ x ∈ a, (x != c) = true := by
    intro x hx
    simp
    exact fun hc => h (hc ▸ hx)
  have h1 := takeWhile_append_stop (fun a => a != c) c (by simp) a b
  rw [if_pos (contains_eq_true_iff.mpr (List.mem_append_right _ (List.mem_cons_self _ _)))]
  rw [h1.1, h1.2, takeWhile_eq_self_of_all hall, dropWhile_eq_nil_of_all hall]
  simp

theorem splitOnChar_fst_not_mem (c : Char) (s : List Char) :
    c ∉ (splitOnChar c s).1 := by
  unfold splitOnChar
  split
  · intro hc
    have := List.mem_takeWhile_imp hc
    simp at this
  · rename_i hcon
    rw [Bool.not_eq_true, contains_eq_false_iff] at hcon
    exact hcon

theorem splitOnChar_prefix_fst (c : Char) (s : List Char) :
    (splitOnChar c s).1 <+: s := by
  unfold splitOnChar
  split
  · exact List.takeWhile_prefix _
  · exact List.prefix_refl _

theorem schemeOk_all {l : List Char} (h : schemeOk l = true) :
    ∀ c ∈ l, isSchemeChar c = true := by
  match l with
  | [] => simp [schemeOk] at h
  | c :: cs =>
    unfold schemeOk at h
    rw [Bool.and_eq_true] at h
    intro x hx
    exact List.all_eq_true.mp h.2 x hx

theorem schemeOk_ne_nil {l : List Char} (h : schemeOk l = true) : l ≠ [] := by
  intro hc
  subst hc
  simp [schemeOk] at h

theorem not_mem_of_schemeOk {l : List Char} {c : Char}
    (h : schemeOk l = true) (hc : isSchemeChar c = false) : c ∉ l := by
  intro hmem
  have := schemeOk_all h c hmem
  rw [this] at hc
  exact Bool.true_eq_false.mp hc

theorem splitScheme_cons {sch : List Char} (r : List Char)
    (hok : schemeOk sch = true) :
    splitScheme (sch ++ ':' :: r) = (sch.map Char.toLower, r) := by
  have hnc : ':' ∉ sch := not_mem_of_schemeOk hok (by decide)
  have hall : ∀ x ∈ sch, (x != ':') = true := by
    intro x hx
    simp
    exact fun hc => hnc (hc ▸ hx)
  have h1 := takeWhile_append_stop (fun c => c != ':') ':' (by simp) sch r
  unfold splitScheme
  rw [h1.1, h1.2, takeWhile_eq_self_of_all hall, dropWhile_eq_nil_of_all hall]
  rw [if_pos]
  · simp
  · rw [Bool.and_eq_true]
    constructor
    · rw [contains_eq_true_iff]
      exact List.mem_append_right _ (List.mem_cons_self _ _)
    · exact hok

theorem splitScheme_no_colon {s : List Char} (h : ':' ∉ s) :
    splitScheme s = ([], s) := by
  unfold splitScheme
  rw [if_neg]
  intro hc
  rw [Bool.and_eq_true, contains_eq_true_iff] at hc
  exact h hc.1

theorem toNat_ofNat_valid (n : Nat) (h : n.isValidChar) :
    (Char.ofNat n).toNat = n := by
  simp [Char.ofNat, dif_pos h, Char.ofNatAux, Char.toNat, UInt32.toNat,
    BitVec.toNat_ofNatLt]

theorem toLower_cases (c : Char) :
    (65 ≤ c.toNat ∧ c.toNat ≤ 90 ∧ (c.toLower).toNat = c.toNat + 32) ∨
    (¬(65 ≤ c.toNat ∧ c.toNat ≤ 90) ∧ c.toLower = c) := by
  unfold Char.toLower
  by_cases h : c.toNat ≥ 65 ∧ c.toNat ≤ 90
  · left
    refine ⟨h.1, h.2, ?_⟩
    rw [if_pos h]
    exact toNat_ofNat_valid _ (Or.inl (by omega))
  · right
    exact ⟨h, by rw [if_neg h]⟩

theorem isUpper_iff (c : Char) : c.isUpper = true ↔ 65 ≤ c.toNat ∧ c.toNat ≤ 90 := by
  simp [Char.isUpper, Char.toNat, UInt32.le_def, BitVec.le_def]
  rfl

theorem isLower_iff (c : Char) : c.isLower = true ↔ 97 ≤ c.toNat ∧ c.toNat ≤ 122 := by
  simp [Char.isLower, Char.toNat, UInt32.le_def, BitVec.le_def]
  rfl

theorem isDigit_iff (c : Char) : c.isDigit = true ↔ 48 ≤ c.toNat ∧ c.toNat ≤ 57 := by
  simp [Char.isDigit, Char.toNat, UInt32.le_def, BitVec.le_def]
  rfl

theorem toLower_toLower (c : Char) : c.toLower.toLower = c.toLower := by
  rcases toLower_cases c with ⟨h1, h2, h3⟩ | ⟨-, h2⟩
  · rcases toLower_cases c.toLower with ⟨h4, h5, -⟩ | ⟨-, h6⟩
    · rw [h3] at h4 h5
      omega
    · exact h6
  · simp only [h2]

theorem map_toLower_idem (l : List Char) :
    (l.map Char.toLower).map Char.toLower = l.map Char.toLower := by
  rw [List.map_map]
  apply List.map_congr_left
  intro c _
  exact toLower_toLower c

theorem isAlpha_toLower {c : Char} (h : c.isAlpha = true) :
    c.toLower.isAlpha = true := by
  rcases toLower_cases c with ⟨h1, h2, h3⟩ | ⟨-, h2⟩
  · have hl : c.toLower.isLower = true := by
      rw [isLower_iff, h3]
      omega
    simp [Char.isAlpha, hl]
  · rw [h2]
    exact h

theorem isSchemeChar_toLower {c : Char} (h : isSchemeChar c = true) :
    isSchemeChar c.toLower = true := by
  rcases toLower_cases c with ⟨h1, h2, h3⟩ | ⟨-, h2⟩
  · have hl : c.toLower.isLower = true := by
      rw [isLower_iff, h3]
      omega
    simp [isSchemeChar, Char.isAlpha, hl]
  · rw [h2]
    exact h

theorem schemeOk_map_toLower {l : List Char} (h : schemeOk l = true) :
    schemeOk (l.map Char.toLower) = true := by
  match l with
  | [] => simp [schemeOk] at h
  | c :: cs =>
    unfold schemeOk at h ⊢
    rw [Bool.and_eq_true] at h
    rw [List.map_cons, Bool.and_eq_true]
    constructor
    · exact isAlpha_toLower h.1
    · rw [← List.map_cons]
      rw [List.all_eq_true]
      intro x hx
      rcases List.mem_map.mp hx with ⟨y, hy, rfl⟩
      exact isSchemeChar_toLower (List.all_eq_true.mp h.2 y hy)

theorem splitNetloc_fst_spec (s : List Char) :
    ∀ c ∈ (splitNetloc s).1, netlocStop c = false := by
  unfold splitNetloc
  split
  · intro c hc
    have := List.mem_takeWhile_imp hc
    simpa using this
  · intro c hc
    exact absurd hc (List.not_mem_nil c)

theorem splitNetloc_snd_spec (s : List Char) :
    (splitNetloc s).1 = [] ∨ (splitNetloc s).2 = [] ∨
      ∃ c t, (splitNetloc s).2 = c :: t ∧ netlocStop c = true := by
  unfold splitNetloc
  split
  · rcases dropWhile_head_spec (fun c => !netlocStop c) (s.drop 2) with h | ⟨c, t, h1, h2⟩
    · right; left; exact h
    · right; right
      refine ⟨c, t, h1, ?_⟩
      simpa using h2
  · left; rfl

theorem splitNetloc_cons_slash {n : List Char} (r : List Char)
    (hn : ∀ c ∈ n, netlocStop c = false)
    (hr : r = [] ∨ r.take 1 = ['/']) :
    splitNetloc ('/' :: '/' :: (n ++ r)) = (n, r) := by
  unfold splitNetloc
  rw [if_pos (by simp)]
  have hall : ∀ c ∈ n, (!netlocStop c) = true := by
    intro c hc
    simp [hn c hc]
  rcases hr with hr | hr
  · subst hr
    simp only [List.drop_succ_cons, List.drop_zero, List.append_nil]
    rw [takeWhile_eq_self_of_all hall, dropWhile_eq_nil_of_all hall]
  · cases r with
    | nil => simp at hr
    | cons c t =>
      have hc : c = '/' := by simpa using hr
      subst hc
      simp only [List.drop_succ_cons, List.drop_zero]
      have h1 := takeWhile_append_stop (fun c => !netlocStop c) '/'
        (by simp [netlocStop]) n t
      rw [h1.1, h1.2, takeWhile_eq_self_of_all hall, dropWhile_eq_nil_of_all hall]
      simp

theorem splitLastSlash_eq_append (p a b : List Char)
    (h : splitLastSlash p = some (a, b)) : p = a ++ b := by
  induction p generalizing a b with
  | nil => simp [splitLastSlash] at h
  | cons c cs ih =>
    unfold splitLastSlash at h
    match hcs : splitLastSlash cs with
    | some (a', b') =>
      rw [hcs] at h
      simp at h
      rw [← h.1, ← h.2]
      rw [List.cons_append]
      congr 1
      exact ih a' b' hcs
    | none =>
      rw [hcs] at h
      by_cases hc : c = '/'
      · rw [if_pos hc] at h
        simp at h
        rw [← h.1, ← h.2]
        simp
      · rw [if_neg hc] at h
        simp at h

theorem splitLastSlash_none_no_slash {p : List Char}
    (h : splitLastSlash p = none) : '/' ∉ p := by
  induction p with
  | nil => exact List.not_mem_nil _
  | cons c cs ih =>
    unfold splitLastSlash at h
    match hcs : splitLastSlash cs with
    | some x =>
      rw [hcs] at h
      simp at h
    | none =>
      rw [hcs] at h
      by_cases hc : c = '/'
      · rw [if_pos hc] at h
        simp at h
      · rw [if_neg hc] at h
        intro hmem
        rcases List.mem_cons.mp hmem with h1 | h1
        · exact hc h1.symm
        · exact ih hcs h1

theorem splitLastSlash_no_slash_snd (p a b : List Char)
    (h : splitLastSlash p = some (a, b)) : '/' ∉ b := by
  induction p generalizing a b with
  | nil => simp [splitLastSlash] at h
  | cons c cs ih =>
    unfold splitLastSlash at h
    match hcs : splitLastSlash cs with
    | some (a', b') =>
      rw [hcs] at h
      simp at h
      rw [← h.2]
      exact ih a' b' hcs
    | none =>
      rw [hcs] at h
      by_cases hc : c = '/'
      · rw [if_pos hc] at h
        simp at h
        rw [← h.2]
        exact splitLastSlash_none_no_slash hcs
      · rw [if_neg hc] at h
        simp at h

theorem splitLastSlash_cons_slash (t : List Char) :
    ∃ a b, splitLastSlash ('/' :: t) = some (a, b) := by
  unfold splitLastSlash
  match ht : splitLastSlash t with
  | some (a, b) => exact ⟨'/' :: a, b, rfl⟩
  | none => exact ⟨['/'], t, by rw [if_pos rfl]⟩

theorem splitLastSlash_cons_eq (c : Char) (cs : List Char) :
    splitLastSlash (c :: cs) =
      match splitLastSlash cs with
      | some (a, b) => some (c :: a, b)
      | none => if c = '/' then some ([c], cs) else none := rfl

theorem splitLastSlash_append_left (a b : List Char) (ha : '/' ∉ a) :
    splitLastSlash (a ++ b) =
      (splitLastSlash b).map (fun x => (a ++ x.1, x.2)) := by
  induction a with
  | nil =>
    simp only [List.nil_append]
    match hb : splitLastSlash b with
    | some (x, y) => simp
    | none => simp
  | cons c cs ih =>
    have hc : c ≠ '/' := fun hc => ha (hc ▸ List.mem_cons_self _ _)
    have hcs : '/' ∉ cs := fun h => ha (List.mem_cons_of_mem _ h)
    rw [List.cons_append, splitLastSlash_cons_eq, ih hcs]
    match hb : splitLastSlash b with
    | some (x, y) => simp
    | none => simp [if_neg hc]

theorem lastSegment_subset (p : List Char) : lastSegment p ⊆ p := by
  unfold lastSegment
  match hp : splitLastSlash p with
  | some (a, b) =>
    rw [splitLastSlash_eq_append p a b hp]
    exact fun x hx => List.mem_append_right _ hx
  | none => exact fun x hx => hx

theorem splitLastSlash_eq_none_of_no_slash {y : List Char} (h : '/' ∉ y) :
    splitLastSlash y = none := by
  induction y with
  | nil => rfl
  | cons c cs ih =>
    have hc : c ≠ '/' := fun hc => h (hc ▸ List.mem_cons_self _ _)
    have hcs : '/' ∉ cs := fun hm => h (List.mem_cons_of_mem _ hm)
    rw [splitLastSlash_cons_eq, ih hcs]
    simp [if_neg hc]

theorem splitLastSlash_concat_slash (x y : List Char) (hy : '/' ∉ y) :
    splitLastSlash (x ++ '/' :: y) = some (x ++ ['/'], y) := by
  induction x with
  | nil =>
    rw [List.nil_append, splitLastSlash_cons_eq,
      splitLastSlash_eq_none_of_no_slash hy]
    simp
  | cons c cs ih =>
    rw [List.cons_append, splitLastSlash_cons_eq, ih]
    simp

theorem splitLastSlash_fst_concat (p a b : List Char)
    (h : splitLastSlash p = some (a, b)) : ∃ a', a = a' ++ ['/'] := by
  induction p generalizing a b with
  | nil => simp [splitLastSlash] at h
  | cons c cs ih =>
    rw [splitLastSlash_cons_eq] at h
    match hcs : splitLastSlash cs with
    | some (a', b') =>
      rw [hcs] at h
      simp at h
      rcases ih a' b' hcs with ⟨a'', ha⟩
      exact ⟨c :: a'', by rw [← h.1, ha]; rfl⟩
    | none =>
      rw [hcs] at h
      by_cases hc : c = '/'
      · rw [if_pos hc] at h
        simp at h
        exact ⟨[], by rw [← h.1, hc]; rfl⟩
      · rw [if_neg hc] at h
        simp at h

theorem splitParams_of_lastSeg_clean {p : List Char}
    (h : ';' ∉ lastSegment p) : splitParams p = (p, []) := by
  rcases hsl : splitLastSlash p with - | ⟨a, b⟩
  · unfold splitParams
    rw [hsl]
    have hp : ';' ∉ p := by
      unfold lastSegment at h
      rw [hsl] at h
      exact h
    rw [if_neg]
    rw [contains_eq_true_iff]
    exact hp
  · unfold splitParams
    rw [hsl]
    have hb : ';' ∉ b := by
      unfold lastSegment at h
      rw [hsl] at h
      exact h
    split
    · dsimp only
      rw [if_neg]
      rw [contains_eq_true_iff]
      exact hb
    · rfl

theorem splitParams_prefix_fst (p : List Char) : (splitParams p).1 <+: p := by
  rcases hsl : splitLastSlash p with - | ⟨a, b⟩
  · unfold splitParams
    rw [hsl]
    split
    · exact splitOnChar_prefix_fst ';' p
    · exact List.prefix_refl _
  · unfold splitParams
    rw [hsl]
    split
    · dsimp only
      split
      · rcases splitOnChar_prefix_fst ';' b with ⟨t, ht⟩
        refine ⟨t, ?_⟩
        rw [splitLastSlash_eq_append p a b hsl, List.append_assoc, ht]
      · exact List.prefix_refl _
    · exact List.prefix_refl _

theorem splitParams_no_semi_lastSeg (p : List Char) :
    ';' ∉ lastSegment (splitParams p).1 := by
  rcases hsl : splitLastSlash p with - | ⟨a, b⟩
  · unfold splitParams
    rw [hsl]
    split
    · intro hm
      exact splitOnChar_fst_not_mem ';' p (lastSegment_subset _ hm)
    · rename_i hcon
      rw [Bool.not_eq_true, contains_eq_false_iff] at hcon
      intro hm
      exact hcon (lastSegment_subset _ hm)
  · unfold splitParams
    rw [hsl]
    split
    · dsimp only
      split
      · rcases splitLastSlash_fst_concat p a b hsl with ⟨a', ha⟩
        have htw : '/' ∉ (splitOnChar ';' b).1 := by
          intro hm
          exact splitLastSlash_no_slash_snd p a b hsl
            ((splitOnChar_prefix_fst ';' b).subset hm)
        have hrw : a ++ (splitOnChar ';' b).1 = a' ++ '/' :: (splitOnChar ';' b).1 := by
          rw [ha, List.append_assoc]
          rfl
        rw [hrw]
        unfold lastSegment
        rw [splitLastSlash_concat_slash a' _ htw]
        exact splitOnChar_fst_not_mem ';' b
      · rename_i hbc
        rw [Bool.not_eq_true, contains_eq_false_iff] at hbc
        unfold lastSegment
        rw [hsl]
        exact hbc
    · rename_i hcon
      rw [Bool.not_eq_true, contains_eq_false_iff] at hcon
      intro hm
      exact hcon (lastSegment_subset _ hm)

theorem hash_not_mem_canon {sch n p : List Char} (hok : schemeOk sch = true)
    (hn : ∀ c ∈ n, netlocStop c = false) (hph : '#' ∉ p) :
    '#' ∉ sch ++ ':' :: '/' :: '/' :: (n ++ p) := by
  intro hm
  simp only [List.mem_append, List.mem_cons] at hm
  rcases hm with hm | hm | hm | hm | hm | hm
  · exact absurd (schemeOk_all hok _ hm) (by decide)
  · simp at hm
  · simp at hm
  · simp at hm
  · have := hn '#' hm
    simp [netlocStop] at this
  · exact hph hm

theorem urlsplitL_canon {sch n p : List Char} (hok : schemeOk sch = true)
    (hlow : sch.map Char.toLower = sch)
    (hn : ∀ c ∈ n, netlocStop c = false)
    (hph : '#' ∉ p) (hpq : '?' ∉ p) (hp : p = [] ∨ p.take 1 = ['/']) :
    urlsplitL (sch ++ ':' :: '/' :: '/' :: (n ++ p)) = ⟨sch, n, p, [], [], []⟩ := by
  have hsch : splitScheme (sch ++ ':' :: ('/' :: '/' :: (n ++ p))) =
      (sch.map Char.toLower, '/' :: '/' :: (n ++ p)) := splitScheme_cons _ hok
  rw [hlow] at hsch
  have hnet : splitNetloc ('/' :: '/' :: (n ++ p)) = (n, p) :=
    splitNetloc_cons_slash p hn hp
  have hfrag : splitOnChar '#' p = (p, []) := splitOnChar_not_mem hph
  have hquery : splitOnChar '?' p = (p, []) := splitOnChar_not_mem hpq
  simp only [urlsplitL, hsch, hnet, hfrag, hquery]

theorem urlparseL_canon {sch n p : List Char} (hok : schemeOk sch = true)
    (hlow : sch.map Char.toLower = sch)
    (hn : ∀ c ∈ n, netlocStop c = false)
    (hph : '#' ∉ p) (hpq : '?' ∉ p) (hp : p = [] ∨ p.take 1 = ['/'])
    (hsemi : usesParams sch = true → ';' ∉ lastSegment p) :
    urlparseL (sch ++ ':' :: '/' :: '/' :: (n ++ p)) = ⟨sch, n, p, [], [], []⟩ := by
  unfold urlparseL
  rw [urlsplitL_canon hok hlow hn hph hpq hp]
  by_cases hup : usesParams sch = true
  · simp only [hup, if_true]
    rw [splitParams_of_lastSeg_clean (hsemi hup)]
  · simp only [hup]
    rw [if_neg]
    simp [hup]

theorem canon_fixed {sch n p : List Char} (hc : CanonParts sch n p)
    (hp : p.take 1 = ['/']) :
    normalize_url (sch ++ ':' :: '/' :: '/' :: (n ++ p)) =
      sch ++ ':' :: '/' :: '/' :: (n ++ p) := by
  obtain ⟨hok, hlow, hn, hpne, hph, hpq, hsemi⟩ := hc
  have hdefrag : urldefragL (sch ++ ':' :: '/' :: '/' :: (n ++ p)) =
      sch ++ ':' :: '/' :: '/' :: (n ++ p) := by
    unfold urldefragL
    rw [if_neg]
    rw [contains_eq_true_iff]
    exact hash_not_mem_canon hok hn hph
  unfold normalize_url
  dsimp only
  rw [hdefrag, urlparseL_canon hok hlow hn hph hpq (Or.inr hp) hsemi]
  dsimp only
  rw [if_neg (schemeOk_ne_nil hok), if_neg hpne]

theorem splitOnChar_nil (c : Char) : splitOnChar c [] = ([], []) := by
  simp [splitOnChar]

theorem splitOnChar_cons_self (c : Char) (t : List Char) :
    splitOnChar c (c :: t) = ([], t) := by
  unfold splitOnChar
  rw [if_pos (contains_eq_true_iff.mpr (List.mem_cons_self _ _))]
  simp

theorem splitOnChar_cons_ne {c d : Char} (t : List Char) (h : d ≠ c) :
    (splitOnChar c (d :: t)).1 = d :: (splitOnChar c t).1 := by
  unfold splitOnChar
  by_cases hct : t.contains c = true
  · have : (d :: t).contains c = true := by
      rw [contains_eq_true_iff] at hct ⊢
      exact List.mem_cons_of_mem _ hct
    rw [if_pos this, if_pos hct]
    simp [List.takeWhile_cons, h]
  · have : (d :: t).contains c = false := by
      rw [Bool.not_eq_true, contains_eq_false_iff] at hct
      rw [contains_eq_false_iff]
      intro hm
      rcases List.mem_cons.mp hm with hm | hm
      · exact h hm.symm
      · exact hct hm
    rw [Bool.not_eq_true] at hct
    rw [if_neg (by rw [this]; simp), if_neg (by rw [hct]; simp)]

theorem netlocStop_iff (c : Char) :
    netlocStop c = true ↔ c = '/' ∨ c = '?' ∨ c = '#' := by
  simp [netlocStop]
  exact or_assoc

theorem prefix_take_one {x y : List Char} (h : x <+: y) (hne : x ≠ []) :
    x.take 1 = y.take 1 := by
  rcases h with ⟨t, rfl⟩
  rw [List.take_append_of_le_length]
  rcases x with - | ⟨c, cs⟩
  · exact absurd rfl hne
  · simp

theorem urlsplitL_facts (t : List Char) :
    ((urlsplitL t).scheme = [] ∨
      (schemeOk (urlsplitL t).scheme = true ∧
        (urlsplitL t).scheme.map Char.toLower = (urlsplitL t).scheme)) ∧
    (∀ c ∈ (urlsplitL t).netloc, netlocStop c = false) ∧
    '#' ∉ (urlsplitL t).path ∧ '?' ∉ (urlsplitL t).path ∧
    ((urlsplitL t).netloc = [] ∨ (urlsplitL t).path = [] ∨
      (urlsplitL t).path.take 1 = ['/']) := by
  unfold urlsplitL
  dsimp only
  refine ⟨?_, splitNetloc_fst_spec _, ?_, ?_, ?_⟩
  · unfold splitScheme
    split
    · rename_i hcond
      rw [Bool.and_eq_true] at hcond
      exact Or.inr ⟨schemeOk_map_toLower hcond.2, map_toLower_idem _⟩
    · exact Or.inl rfl
  · intro hm
    have h1 := (splitOnChar_prefix_fst '?' (splitOnChar '#'
      (splitNetloc (splitScheme t).2).2).1).subset hm
    exact splitOnChar_fst_not_mem '#' _ h1
  · exact splitOnChar_fst_not_mem '?' _
  · rcases splitNetloc_snd_spec (splitScheme t).2 with h | h | ⟨c, t', h1, h2⟩
    · exact Or.inl h
    · right; left
      rw [h, splitOnChar_nil, splitOnChar_nil]
    · rw [h1]
      rcases (netlocStop_iff c).mp h2 with rfl | rfl | rfl
      · right; right
        rw [splitOnChar_cons_ne t' (by decide),
          splitOnChar_cons_ne ((splitOnChar '#' t').1) (by decide)]
        rfl
      · right; left
        rw [splitOnChar_cons_ne t' (by decide), splitOnChar_cons_self]
      · right; left
        rw [splitOnChar_cons_self, splitOnChar_nil]

theorem urlparseL_facts (t : List Char) :
    ((urlparseL t).scheme = [] ∨
      (schemeOk (urlparseL t).scheme = true ∧
        (urlparseL t).scheme.map Char.toLower = (urlparseL t).scheme)) ∧
    (∀ c ∈ (urlparseL t).netloc, netlocStop c = false) ∧
    '#' ∉ (urlparseL t).path ∧ '?' ∉ (urlparseL t).path ∧
    (usesParams (urlparseL t).scheme = true →
      ';' ∉ lastSegment (urlparseL t).path) ∧
    ((urlparseL t).netloc = [] ∨ (urlparseL t).path = [] ∨
      (urlparseL t).path.take 1 = ['/']) := by
  obtain ⟨hs, hn, hh, hq, hd⟩ := urlsplitL_facts t
  unfold urlparseL
  dsimp only
  by_cases hup : usesParams (urlsplitL t).scheme = true
  · rw [if_pos hup]
    dsimp only
    have hpre := splitParams_prefix_fst (urlsplitL t).path
    refine ⟨hs, hn, fun hm => hh (hpre.subset hm), fun hm => hq (hpre.subset hm),
      fun _ => splitParams_no_semi_lastSeg _, ?_⟩
    rcases hd with h | h | h
    · exact Or.inl h
    · right; left
      rw [h]
      rw [show splitParams [] = ([], []) from by simp [splitParams]]
    · by_cases hnil : (splitParams (urlsplitL t).path).1 = []
      · exact Or.inr (Or.inl hnil)
      · right; right
        rw [prefix_take_one hpre hnil]
        exact h
  · rw [if_neg hup]
    exact ⟨hs, hn, hh, hq, fun hc => absurd hc hup, hd⟩

theorem normalize_shape (s : List Char) :
    ∃ sch n p, normalize_url s = sch ++ ':' :: '/' :: '/' :: (n ++ p) ∧
      CanonParts sch n p ∧ (n = [] ∨ p.take 1 = ['/']) := by
  obtain ⟨hs, hn, hh, hq, hsemi, hd⟩ := urlparseL_facts (urldefragL s)
  refine ⟨if (urlparseL (urldefragL s)).scheme = [] then toL "http"
      else (urlparseL (urldefragL s)).scheme,
    (urlparseL (urldefragL s)).netloc,
    if (urlparseL (urldefragL s)).path = [] then ['/']
      else (urlparseL (urldefragL s)).path, rfl, ?_, ?_⟩
  · constructor
    · split
      · decide
      · rename_i hne
        rcases hs with h | h
        · exact absurd h hne
        · exact h.1
    constructor
    · split
      · decide
      · rename_i hne
        rcases hs with h | h
        · exact absurd h hne
        · exact h.2
    refine ⟨hn, ?_, ?_, ?_, ?_⟩
    · split
      · simp
      · rename_i hne
        exact hne
    · split
      · decide
      · exact hh
    · split
      · decide
      · exact hq
    · intro hup
      split
      · decide
      · rename_i hne
        apply hsemi
        split at hup
        · rename_i hsch
          rw [hsch]
          decide
        · exact hup
  · rcases hd with h | h | h
    · exact Or.inl h
    · right
      rw [if_pos h]
      rfl
    · right
      split
      · rfl
      · exact h

theorem canon_step {sch p : List Char} (hc : CanonParts sch [] p) :
    normalize_url (sch ++ ':' :: '/' :: '/' :: p) =
      sch ++ ':' :: '/' :: '/' ::
        (p.takeWhile (fun c => !netlocStop c) ++
          (if p.dropWhile (fun c => !netlocStop c) = [] then ['/']
           else p.dropWhile (fun c => !netlocStop c))) ∧
    CanonParts sch (p.takeWhile (fun c => !netlocStop c))
      (if p.dropWhile (fun c => !netlocStop c) = [] then ['/']
       else p.dropWhile (fun c => !netlocStop c)) ∧
    (if p.dropWhile (fun c => !netlocStop c) = [] then ['/']
     else p.dropWhile (fun c => !netlocStop c)).take 1 = ['/'] := by
  obtain ⟨hok, hlow, -, hpne, hph, hpq, hsemi⟩ := hc
  set n' := p.takeWhile (fun c => !netlocStop c) with hn'def
  set r := p.dropWhile (fun c => !netlocStop c) with hrdef
  have hdecomp : n' ++ r = p := List.takeWhile_append_dropWhile _ _
  have hn' : ∀ c ∈ n', netlocStop c = false := by
    intro c hc
    have := List.mem_takeWhile_imp hc
    simpa using this
  have hrsub : ∀ c ∈ r, c ∈ p := by
    intro c hc
    rw [← hdecomp]
    exact List.mem_append_right _ hc
  have hrshape : r = [] ∨ ∃ t, r = '/' :: t := by
    rcases dropWhile_head_spec (fun c => !netlocStop c) p with h | ⟨c, t, h1, h2⟩
    · exact Or.inl h
    · right
      have hstop : netlocStop c = true := by simpa using h2
      have hcp : c ∈ p := hrsub c (by rw [hrdef, h1]; exact List.mem_cons_self _ _)
      rcases (netlocStop_iff c).mp hstop with rfl | rfl | rfl
      · exact ⟨t, by rw [hrdef, h1]⟩
      · exact absurd hcp hpq
      · exact absurd hcp hph
  have hph_r : '#' ∉ r := fun hm => hph (hrsub _ hm)
  have hpq_r : '?' ∉ r := fun hm => hpq (hrsub _ hm)
  have hror : r = [] ∨ r.take 1 = ['/'] := by
    rcases hrshape with h | ⟨t, h⟩
    · exact Or.inl h
    · right
      rw [h]
      rfl
  have hsemi_r : usesParams sch = true → ';' ∉ lastSegment r := by
    intro hup
    rcases hrshape with h | ⟨t, h⟩
    · rw [h]
      simp [lastSegment, splitLastSlash]
    · have hslash : '/' ∉ n' := by
        intro hm
        have := hn' '/' hm
        simp [netlocStop] at this
      rcases splitLastSlash_cons_slash t with ⟨a, b, hab⟩
      have hp2 : splitLastSlash p = some (n' ++ a, b) := by
        rw [← hdecomp, splitLastSlash_append_left n' r hslash, h, hab]
        rfl
      have h1 : lastSegment r = b := by
        unfold lastSegment
        rw [h, hab]
      have h2 : lastSegment p = b := by
        unfold lastSegment
        rw [hp2]
      rw [h1, ← h2]
      exact hsemi hup
  have hhash : '#' ∉ sch ++ ':' :: '/' :: '/' :: p := by
    have := hash_not_mem_canon (n := []) (p := p) hok (by simp) hph
    simpa using this
  have hdefrag : urldefragL (sch ++ ':' :: '/' :: '/' :: p) =
      sch ++ ':' :: '/' :: '/' :: p := by
    unfold urldefragL
    rw [if_neg]
    rw [contains_eq_true_iff]
    exact hhash
  have hparse : urlparseL (sch ++ ':' :: '/' :: '/' :: p) =
      ⟨sch, n', r, [], [], []⟩ := by
    have := urlparseL_canon (n := n') (p := r) hok hlow hn' hph_r hpq_r hror hsemi_r
    rw [hdecomp] at this
    exact this
  refine ⟨?_, ?_, ?_⟩
  · unfold normalize_url
    dsimp only
    rw [hdefrag, hparse]
    dsimp only
    rw [if_neg (schemeOk_ne_nil hok)]
  · refine ⟨hok, hlow, hn', ?_, ?_, ?_, ?_⟩
    · split
      · simp
      · rename_i h
        exact h
    · split
      · decide
      · exact hph_r
    · split
      · decide
      · exact hpq_r
    · intro hup
      split
      · simp [lastSegment, splitLastSlash]
      · exact hsemi_r hup
  · rcases hrshape with h | ⟨t, h⟩
    · rw [if_pos h]
      rfl
    · rw [if_neg (by rw [h]; simp), h]
      rfl

theorem splitScheme_snd_subset (s : List Char) :
    ∀ c ∈ (splitScheme s).2, c ∈ s := by
  unfold splitScheme
  split
  · intro c hc
    have h1 : c ∈ (s.dropWhile (fun c => c != ':')) := List.mem_of_mem_tail hc
    exact (List.dropWhile_suffix _).subset h1
  · exact fun c hc => hc

theorem splitNetloc_snd_subset (s : List Char) :
    ∀ c ∈ (splitNetloc s).2, c ∈ s := by
  unfold splitNetloc
  split
  · intro c hc
    have h1 := (List.dropWhile_suffix (fun c => !netlocStop c)).subset hc
    exact (List.drop_subset 2 s) h1
  · exact fun c hc => hc

theorem schemeOk_no_question {l : List Char} (h : '?' ∈ l) :
    schemeOk l = false := by
  by_cases hok : schemeOk l = true
  · exact absurd h (not_mem_of_schemeOk hok (by decide))
  · exact Bool.not_eq_true _ |>.mp hok

theorem first_char_decomp {c : Char} {l : List Char} (h : c ∈ l) :
    ∃ a t, l = a ++ c :: t ∧ c ∉ a := by
  refine ⟨l.takeWhile (fun x => x != c), (l.dropWhile (fun x => x != c)).tail,
    ?_, ?_⟩
  · rcases dropWhile_head_spec (fun x => x != c) l with hd | ⟨d, t, h1, h2⟩
    · exact absurd hd (dropWhile_ne_nil_of_mem h)
    · have hdc : d = c := by simpa using h2
      rw [hdc] at h1
      conv_lhs => rw [← List.takeWhile_append_dropWhile (fun x => x != c) l]
      rw [h1]
      simp
  · intro hm
    have := List.mem_takeWhile_imp hm
    simp at this

theorem splitScheme_first_colon {a : List Char} (r : List Char)
    (ha : ':' ∉ a) :
    splitScheme (a ++ ':' :: r) =
      if schemeOk a = true then (a.map Char.toLower, r)
      else ([], a ++ ':' :: r) := by
  have hall : ∀ x ∈ a, ((fun c => c != ':') x) = true := by
    intro x hx
    simp
    exact fun hc => ha (hc ▸ hx)
  have h1 := takeWhile_append_stop (fun c => c != ':') ':' (by simp) a r
  have hcon : (a ++ ':' :: r).contains ':' = true := by
    rw [contains_eq_true_iff]
    exact List.mem_append_right _ (List.mem_cons_self _ _)
  unfold splitScheme
  rw [h1.1, h1.2, takeWhile_eq_self_of_all hall, dropWhile_eq_nil_of_all hall,
    hcon, Bool.true_and, List.nil_append]
  simp

theorem splitScheme_append_query (base q : List Char) :
    (splitScheme (base ++ '?' :: q)).1 = (splitScheme base).1 ∧
    (splitScheme (base ++ '?' :: q)).2 = (splitScheme base).2 ++ '?' :: q := by
  by_cases hcol : ':' ∈ base
  · rcases first_char_decomp hcol with ⟨a, t, hbase, ha⟩
    have hx : base ++ '?' :: q = a ++ ':' :: (t ++ '?' :: q) := by
      rw [hbase]
      simp
    rw [hx, hbase, splitScheme_first_colon _ ha, splitScheme_first_colon _ ha]
    by_cases hok : schemeOk a = true
    · rw [if_pos hok, if_pos hok]
      exact ⟨rfl, rfl⟩
    · rw [if_neg hok, if_neg hok]
      constructor
      · rfl
      · simp
  · have hbs : splitScheme base = ([], base) := splitScheme_no_colon hcol
    by_cases hcq : ':' ∈ q
    · rcases first_char_decomp hcq with ⟨qa, qt, hq, hqa⟩
      have hx : base ++ '?' :: q = (base ++ '?' :: qa) ++ ':' :: qt := by
        rw [hq]
        simp
      have hnoc : ':' ∉ base ++ '?' :: qa := by
        intro hm
        rcases List.mem_append.mp hm with hm | hm
        · exact hcol hm
        · rcases List.mem_cons.mp hm with hm | hm
          · simp at hm
          · exact hqa hm
      rw [hx, splitScheme_first_colon _ hnoc]
      have hques : schemeOk (base ++ '?' :: qa) = false :=
        schemeOk_no_question (List.mem_append_right _ (List.mem_cons_self _ _))
      rw [if_neg (by rw [hques]; simp), hbs]
      exact ⟨rfl, by simp [hq]⟩
    · have hnoc : ':' ∉ base ++ '?' :: q := by
        intro hm
        rcases List.mem_append.mp hm with hm | hm
        · exact hcol hm
        · rcases List.mem_cons.mp hm with hm | hm
          · simp at hm
          · exact hcq hm
      rw [splitScheme_no_colon hnoc, hbs]
      exact ⟨rfl, rfl⟩

theorem take_two_append_query (r q : List Char) (h : r.take 2 ≠ ['/', '/']) :
    (r ++ '?' :: q).take 2 ≠ ['/', '/'] := by
  match r with
  | [] =>
    intro hc
    simp at hc
  | [c] =>
    intro hc
    simp at hc
  | c1 :: c2 :: r' =>
    intro hc
    exact h (by simpa using hc)

theorem splitNetloc_append_query (r q : List Char) :
    (splitNetloc (r ++ '?' :: q)).1 = (splitNetloc r).1 ∧
    (splitNetloc (r ++ '?' :: q)).2 = (splitNetloc r).2 ++ '?' :: q := by
  unfold splitNetloc
  by_cases h2 : r.take 2 = ['/', '/']
  · match r, h2 with
    | c1 :: c2 :: r', h2 =>
      have h2' : c1 = '/' ∧ c2 = '/' := by simpa using h2
      obtain ⟨hc1, hc2⟩ := h2'
      subst hc1
      subst hc2
      rw [if_pos (by simp), if_pos (by simp)]
      simp only [List.cons_append, List.drop_succ_cons, List.drop_zero]
      have h3 := takeWhile_append_stop (fun c => !netlocStop c) '?'
        (by simp [netlocStop]) r' q
      exact ⟨h3.1, h3.2⟩
  · rw [if_neg (by simpa using take_two_append_query r q h2), if_neg (by simpa using h2)]
    exact ⟨rfl, rfl⟩

theorem urlsplitL_append_query (base q : List Char) (hb : '?' ∉ base)
    (hbh : '#' ∉ base) (hq : '#' ∉ q) :
    urlsplitL (base ++ '?' :: q) =
      ⟨(urlsplitL base).scheme, (urlsplitL base).netloc, (urlsplitL base).path,
        [], q, []⟩ := by
  obtain ⟨hs1, hs2⟩ := splitScheme_append_query base q
  have hBsub := splitScheme_snd_subset base
  have hn := splitNetloc_append_query (splitScheme base).2 q
  have hCsub := splitNetloc_snd_subset (splitScheme base).2
  have hCq : '?' ∉ (splitNetloc (splitScheme base).2).2 :=
    fun hm => hb (hBsub _ (hCsub _ hm))
  have hCh : '#' ∉ (splitNetloc (splitScheme base).2).2 :=
    fun hm => hbh (hBsub _ (hCsub _ hm))
  have hxf : splitOnChar '#' ((splitNetloc (splitScheme base).2).2 ++ '?' :: q) =
      ((splitNetloc (splitScheme base).2).2 ++ '?' :: q, []) := by
    apply splitOnChar_not_mem
    intro hm
    rcases List.mem_append.mp hm with hm | hm
    · exact hCh hm
    · rcases List.mem_cons.mp hm with hm | hm
      · simp at hm
      · exact hq hm
  have hxq : splitOnChar '?' ((splitNetloc (splitScheme base).2).2 ++ '?' :: q) =
      ((splitNetloc (splitScheme base).2).2, q) := splitOnChar_first q hCq
  have hbf : splitOnChar '#' (splitNetloc (splitScheme base).2).2 =
      ((splitNetloc (splitScheme base).2).2, []) := splitOnChar_not_mem hCh
  have hbq : splitOnChar '?' (splitNetloc (splitScheme base).2).2 =
      ((splitNetloc (splitScheme base).2).2, []) := splitOnChar_not_mem hCq
  simp only [urlsplitL, hs1, hs2, hn.1, hn.2, hxf, hxq, hbf, hbq]

theorem normalize_drop_query (base q : List Char) (hb : '?' ∉ base)
    (hbh : '#' ∉ base) (hq : '#' ∉ q) :
    normalize_url (base ++ '?' :: q) = normalize_url base := by
  have hdx : urldefragL (base ++ '?' :: q) = base ++ '?' :: q := by
    unfold urldefragL
    rw [if_neg]
    rw [contains_eq_true_iff]
    intro hm
    rcases List.mem_append.mp hm with hm | hm
    · exact hbh hm
    · rcases List.mem_cons.mp hm with hm | hm
      · simp at hm
      · exact hq hm
  have hdb : urldefragL base = base := by
    unfold urldefragL
    rw [if_neg]
    rw [contains_eq_true_iff]
    exact hbh
  unfold normalize_url
  dsimp only
  rw [hdx, hdb]
  unfold urlparseL
  rw [urlsplitL_append_query base q hb hbh hq]
  dsimp only
  by_cases hup : usesParams (urlsplitL base).scheme = true
  · rw [if_pos hup, if_pos hup]
  · rw [if_neg hup, if_neg hup]

/-!  Facts about the error-aware model: the cleansing, the membership
closure of normalization (no tab, CR or LF is ever created), and the
reduction of `urlsplitX` to `urlsplitL` plus a netloc guard. -/

theorem cleanse_subset (s : List Char) : ∀ c ∈ cleanseUrl s, c ∈ s := by
  intro c hc
  have h1 := List.mem_of_mem_filter hc
  exact (List.dropWhile_suffix isC0OrSpace).subset h1

theorem cleanse_clean (s : List Char) :
    ∀ c ∈ cleanseUrl s, isUnsafeByte c = false := by
  intro c hc
  have h1 := List.of_mem_filter hc
  simpa using h1

theorem cleanseUrl_cons {c : Char} {t : List Char} (hc : isC0OrSpace c = false)
    (hcl : ∀ x ∈ c :: t, isUnsafeByte x = false) :
    cleanseUrl (c :: t) = c :: t := by
  unfold cleanseUrl
  rw [List.dropWhile_cons, if_neg (by simp [hc])]
  apply List.filter_eq_self.mpr
  intro a ha
  simp [hcl a ha]

theorem isAlpha_not_c0 {c : Char} (h : c.isAlpha = true) :
    isC0OrSpace c = false := by
  unfold Char.isAlpha at h
  rw [Bool.or_eq_true] at h
  unfold isC0OrSpace
  rcases h with h | h
  · have h1 := (isUpper_iff c).mp h
    simp only [decide_eq_false_iff_not]
    omega
  · have h1 := (isLower_iff c).mp h
    simp only [decide_eq_false_iff_not]
    omega

theorem isUnsafeByte_toNat {c : Char} (h : isUnsafeByte c = true) :
    c.toNat = 9 ∨ c.toNat = 13 ∨ c.toNat = 10 := by
  unfold isUnsafeByte at h
  rw [Bool.or_eq_true, Bool.or_eq_true] at h
  rcases h with (h | h) | h
  · left
    rw [eq_of_beq h]
    rfl
  · right; left
    rw [eq_of_beq h]
    rfl
  · right; right
    rw [eq_of_beq h]
    rfl

theorem toLower_safe {d : Char} (hd : isUnsafeByte d = false) :
    isUnsafeByte d.toLower = false := by
  rcases toLower_cases d with ⟨h1, -, h3⟩ | ⟨-, h2⟩
  · by_contra hcon
    rw [Bool.not_eq_false] at hcon
    rcases isUnsafeByte_toNat hcon with h | h | h <;> omega
  · rw [h2]
    exact hd

theorem schemeOk_head {l : List Char} (h : schemeOk l = true) :
    ∃ c cs, l = c :: cs ∧ c.isAlpha = true := by
  match l with
  | [] => simp [schemeOk] at h
  | c :: cs =>
    unfold schemeOk at h
    rw [Bool.and_eq_true] at h
    exact ⟨c, cs, rfl, h.1⟩

theorem splitOnChar_snd_subset (c : Char) (s : List Char) :
    ∀ x ∈ (splitOnChar c s).2, x ∈ s := by
  unfold splitOnChar
  split
  · intro x hx
    have h1 : x ∈ s.dropWhile (fun a => a != c) := List.mem_of_mem_tail hx
    exact (List.dropWhile_suffix _).subset h1
  · intro x hx
    exact absurd hx (List.not_mem_nil x)

theorem splitParams_snd_subset (p : List Char) :
    ∀ x ∈ (splitParams p).2, x ∈ p := by
  rcases hsl : splitLastSlash p with - | ⟨a, b⟩
  · unfold splitParams
    rw [hsl]
    by_cases hpc : p.contains ';' = true
    · rw [if_pos hpc]
      exact fun x hx => splitOnChar_snd_subset ';' p x hx
    · rw [if_neg hpc]
      exact fun x hx => absurd hx (List.not_mem_nil x)
  · unfold splitParams
    rw [hsl]
    have hab := splitLastSlash_eq_append p a b hsl
    by_cases hpc : p.contains ';' = true
    · rw [if_pos hpc]
      show ∀ x ∈ (if b.contains ';' then
          (a ++ (splitOnChar ';' b).1, (splitOnChar ';' b).2)
          else (p, [])).2, x ∈ p
      by_cases hbc : b.contains ';' = true
      · rw [if_pos hbc]
        intro x hx
        rw [hab]
        exact List.mem_append_right _ (splitOnChar_snd_subset ';' b x hx)
      · rw [if_neg hbc]
        exact fun x hx => absurd hx (List.not_mem_nil x)
    · rw [if_neg hpc]
      exact fun x hx => absurd hx (List.not_mem_nil x)

theorem splitScheme_fst_toLower (s : List Char) :
    ∀ x ∈ (splitScheme s).1, ∃ d ∈ s, x = d.toLower := by
  unfold splitScheme
  split
  · intro x hx
    rcases List.mem_map.mp hx with ⟨d, hd, hxd⟩
    exact ⟨d, (List.takeWhile_prefix _).subset hd, hxd.symm⟩
  · intro x hx
    exact absurd hx (List.not_mem_nil x)

theorem splitNetloc_fst_subset (s : List Char) :
    ∀ x ∈ (splitNetloc s).1, x ∈ s := by
  unfold splitNetloc
  split
  · intro x hx
    have h1 := (List.takeWhile_prefix _).subset hx
    exact List.drop_subset 2 s h1
  · intro x hx
    exact absurd hx (List.not_mem_nil x)

theorem urlsplitL_params_nil (t : List Char) : (urlsplitL t).params = [] := rfl

theorem urlsplitL_mem (t : List Char) :
    (∀ x ∈ (urlsplitL t).scheme, ∃ d ∈ t, x = d.toLower) ∧
    (∀ x ∈ (urlsplitL t).netloc, x ∈ t) ∧
    (∀ x ∈ (urlsplitL t).path, x ∈ t) ∧
    (∀ x ∈ (urlsplitL t).query, x ∈ t) := by
  unfold urlsplitL
  dsimp only
  refine ⟨splitScheme_fst_toLower t, ?_, ?_, ?_⟩
  · intro x hx
    exact splitScheme_snd_subset t x (splitNetloc_fst_subset _ x hx)
  · intro x hx
    have h1 := (splitOnChar_prefix_fst '?' _).subset hx
    have h2 := (splitOnChar_prefix_fst '#' _).subset h1
    exact splitScheme_snd_subset t x (splitNetloc_snd_subset _ x h2)
  · intro x hx
    have h1 := splitOnChar_snd_subset '?' _ x hx
    have h2 := (splitOnChar_prefix_fst '#' _).subset h1
    exact splitScheme_snd_subset t x (splitNetloc_snd_subset _ x h2)

theorem urlparseL_mem (t : List Char) :
    (∀ x ∈ (urlparseL t).scheme, ∃ d ∈ t, x = d.toLower) ∧
    (∀ x ∈ (urlparseL t).netloc, x ∈ t) ∧
    (∀ x ∈ (urlparseL t).path, x ∈ t) ∧
    (∀ x ∈ (urlparseL t).params, x ∈ t) ∧
    (∀ x ∈ (urlparseL t).query, x ∈ t) := by
  obtain ⟨hs, hn, hp, hq⟩ := urlsplitL_mem t
  unfold urlparseL
  dsimp only
  by_cases hup : usesParams (urlsplitL t).scheme = true
  · rw [if_pos hup]
    refine ⟨hs, hn, ?_, ?_, hq⟩
    · intro x hx
      exact hp x ((splitParams_prefix_fst _).subset hx)
    · intro x hx
      exact hp x (splitParams_snd_subset _ x hx)
  · rw [if_neg hup]
    refine ⟨hs, hn, hp, ?_, hq⟩
    rw [urlsplitL_params_nil]
    exact fun x hx => absurd hx (List.not_mem_nil x)

theorem mem_urlunsplitL_no_frag (sch n url q : List Char) (x : Char)
    (hx : x ∈ urlunsplitL sch n url q []) :
    x ∈ sch ∨ x ∈ n ∨ x ∈ url ∨ x ∈ q ∨ x = ':' ∨ x = '/' ∨ x = '?' := by
  unfold urlunsplitL at hx
  dsimp only at hx
  rw [if_neg (show ¬(([] : List Char) ≠ []) from by simp)] at hx
  have hU1 : ∀ y : Char,
      y ∈ (if n ≠ [] ∨ sch ≠ [] ∧ usesNetloc sch ∧ url.take 2 ≠ ['/', '/']
        then ['/', '/'] ++ n ++
          (if url ≠ [] ∧ url.take 1 ≠ ['/'] then '/' :: url else url)
        else url) →
      y ∈ n ∨ y ∈ url ∨ y = '/' := by
    intro y hy
    split at hy
    · rcases List.mem_append.mp hy with hy | hy
      · rcases List.mem_append.mp hy with hy | hy
        · rcases List.mem_cons.mp hy with hy | hy
          · tauto
          · rcases List.mem_cons.mp hy with hy | hy
            · tauto
            · exact absurd hy (List.not_mem_nil y)
        · tauto
      · split at hy
        · rcases List.mem_cons.mp hy with hy | hy <;> tauto
        · tauto
    · tauto
  have hU2 : ∀ y : Char,
      y ∈ (if sch ≠ [] then sch ++ ':' ::
          (if n ≠ [] ∨ sch ≠ [] ∧ usesNetloc sch ∧ url.take 2 ≠ ['/', '/']
            then ['/', '/'] ++ n ++
              (if url ≠ [] ∧ url.take 1 ≠ ['/'] then '/' :: url else url)
            else url)
        else (if n ≠ [] ∨ sch ≠ [] ∧ usesNetloc sch ∧ url.take 2 ≠ ['/', '/']
            then ['/', '/'] ++ n ++
              (if url ≠ [] ∧ url.take 1 ≠ ['/'] then '/' :: url else url)
            else url)) →
      y ∈ sch ∨ y ∈ n ∨ y ∈ url ∨ y = ':' ∨ y = '/' := by
    intro y hy
    split at hy
    · rcases List.mem_append.mp hy with hy | hy
      · tauto
      · rcases List.mem_cons.mp hy with hy | hy
        · tauto
        · rcases hU1 y hy with h | h | h <;> tauto
    · rcases hU1 y hy with h | h | h <;> tauto
  split at hx
  · rcases List.mem_append.mp hx with hx | hx
    · rcases hU2 x hx with h | h | h | h | h <;> tauto
    · rcases List.mem_cons.mp hx with hx | hx
      · tauto
      · tauto
  · rcases hU2 x hx with h | h | h | h | h <;> tauto

theorem mem_urlunparseL_no_frag {sch n p a q : List Char} {x : Char}
    (hx : x ∈ urlunparseL sch n p a q []) :
    x ∈ sch ∨ x ∈ n ∨ x ∈ p ∨ x ∈ a ∨ x ∈ q ∨
      x = ':' ∨ x = '/' ∨ x = ';' ∨ x = '?' := by
  unfold urlunparseL at hx
  rcases mem_urlunsplitL_no_frag _ _ _ _ _ hx with h | h | h | h | h | h | h
  · tauto
  · tauto
  · split at h
    · simp only [List.mem_append, List.mem_cons] at h
      tauto
    · tauto
  all_goals tauto

theorem mem_urldefragL {s : List Char} {x : Char} (hx : x ∈ urldefragL s) :
    x ∈ s ∨ (∃ d ∈ s, x = d.toLower) ∨
      x = ':' ∨ x = '/' ∨ x = ';' ∨ x = '?' := by
  unfold urldefragL at hx
  split at hx
  · obtain ⟨hs, hn, hp, ha, hq⟩ := urlparseL_mem s
    rcases mem_urlunparseL_no_frag hx with h | h | h | h | h | h | h | h | h
    · exact Or.inr (Or.inl (hs x h))
    · exact Or.inl (hn x h)
    · exact Or.inl (hp x h)
    · exact Or.inl (ha x h)
    · exact Or.inl (hq x h)
    all_goals tauto
  · exact Or.inl hx

theorem mem_normalize_url {s : List Char} {x : Char}
    (hx : x ∈ normalize_url s) :
    x ∈ s ∨ (∃ d ∈ s, x = d.toLower) ∨
      x = ':' ∨ x = '/' ∨ x = ';' ∨ x = '?' ∨
      x = 'h' ∨ x = 't' ∨ x = 'p' := by
  have lift : ∀ y : Char, y ∈ urldefragL s →
      (y ∈ s ∨ (∃ d ∈ s, y = d.toLower) ∨
        y = ':' ∨ y = '/' ∨ y = ';' ∨ y = '?') :=
    fun y hy => mem_urldefragL hy
  have liftLower : ∀ d : Char, d ∈ urldefragL s → x = d.toLower →
      (x ∈ s ∨ (∃ e ∈ s, x = e.toLower) ∨
        x = ':' ∨ x = '/' ∨ x = ';' ∨ x = '?') := by
    intro d hd hxd
    rcases lift d hd with h | ⟨e, he, hde⟩ | h | h | h | h
    · exact Or.inr (Or.inl ⟨d, h, hxd⟩)
    · subst hde
      rw [toLower_toLower] at hxd
      exact Or.inr (Or.inl ⟨e, he, hxd⟩)
    all_goals (subst h; rw [hxd]; tauto)
  obtain ⟨hs, hn, hp, -, -⟩ := urlparseL_mem (urldefragL s)
  unfold normalize_url at hx
  dsimp only at hx
  simp only [List.mem_append, List.mem_cons, List.not_mem_nil,
    or_false, false_or] at hx
  rcases hx with hx | hx | hx | hx | hx | hx
  · split at hx
    · simp only [toL, String.toList] at hx
      fin_cases hx <;> tauto
    · rcases hs x hx with ⟨d, hd, hxd⟩
      rcases liftLower d hd hxd with h | h | h | h | h | h
      · exact Or.inl h
      · exact Or.inr (Or.inl h)
      all_goals tauto
  · tauto
  · tauto
  · tauto
  · rcases lift x (hn x hx) with h | h | h | h | h | h
    · exact Or.inl h
    · exact Or.inr (Or.inl h)
    all_goals tauto
  · split at hx
    · simp only [List.mem_singleton] at hx
      tauto
    · rcases lift x (hp x hx) with h | h | h | h | h | h
      · exact Or.inl h
      · exact Or.inr (Or.inl h)
      all_goals tauto

theorem normalize_url_clean {s : List Char}
    (h : ∀ c ∈ s, isUnsafeByte c = false) :
    ∀ c ∈ normalize_url s, isUnsafeByte c = false := by
  intro c hc
  rcases mem_normalize_url hc with
    hm | ⟨d, hd, hcd⟩ | hm | hm | hm | hm | hm | hm | hm
  · exact h c hm
  · rw [hcd]
    exact toLower_safe (h d hd)
  all_goals (subst hm; decide)

theorem opt_guard_chain {α : Type} (x y z w : Bool) (k : α) :
    (if (x || y) = true then none else
      if z = true then none else
        if w = true then none else some k) =
      (if (x || y || z || w) = true then none else some k) := by
  cases x <;> cases y <;> cases z <;> cases w <;> simp

theorem urlsplitX_eq (o : ParseOracles) (s : List Char) :
    urlsplitX o s =
      if netlocRejected o (urlsplitL (cleanseUrl s)).netloc = true then none
      else some (urlsplitL (cleanseUrl s)) := by
  unfold urlsplitX netlocRejected urlsplitL
  dsimp only
  exact opt_guard_chain _ _ _ _ _

theorem urlparseX_eq (o : ParseOracles) (s : List Char) :
    urlparseX o s =
      if netlocRejected o (urlsplitL (cleanseUrl s)).netloc = true then none
      else some (urlparseL (cleanseUrl s)) := by
  unfold urlparseX
  rw [urlsplitX_eq]
  split
  · rfl
  · rfl

theorem urldefragX_no_hash {o : ParseOracles} {s : List Char}
    (h : '#' ∉ s) : urldefragX o s = some s := by
  unfold urldefragX
  rw [if_neg]
  rw [contains_eq_true_iff]
  exact h

theorem urlsplitL_query_no_hash (t : List Char) :
    '#' ∉ (urlsplitL t).query := by
  unfold urlsplitL
  dsimp only
  intro hm
  have h1 := splitOnChar_snd_subset '?' _ '#' hm
  exact splitOnChar_fst_not_mem '#' _ h1

theorem urlparseL_query_eq (t : List Char) :
    (urlparseL t).query = (urlsplitL t).query := by
  unfold urlparseL
  dsimp only
  by_cases hup : usesParams (urlsplitL t).scheme = true
  · rw [if_pos hup]
  · rw [if_neg hup]

theorem urlparseL_params_no_hash (t : List Char) :
    '#' ∉ (urlparseL t).params := by
  unfold urlparseL
  dsimp only
  by_cases hup : usesParams (urlsplitL t).scheme = true
  · rw [if_pos hup]
    intro hm
    exact (urlsplitL_facts t).2.2.1 (splitParams_snd_subset _ '#' hm)
  · rw [if_neg hup]
    rw [urlsplitL_params_nil]
    exact List.not_mem_nil _

theorem urldefragX_no_hash_out {o : ParseOracles} {s s1 : List Char}
    (h : urldefragX o s = some s1) : '#' ∉ s1 := by
  unfold urldefragX at h
  split at h
  · rw [urlparseX_eq] at h
    split at h
    · simp at h
    · simp only [Option.map_some'] at h
      injection h with h
      intro hm
      rw [← h] at hm
      obtain ⟨hsch, hn, hph, -, -, -⟩ := urlparseL_facts (cleanseUrl s)
      rcases mem_urlunparseL_no_frag hm with
        h1 | h1 | h1 | h1 | h1 | h1 | h1 | h1 | h1
      · rcases hsch with h2 | ⟨h2, -⟩
        · rw [h2] at h1
          exact absurd h1 (List.not_mem_nil _)
        · exact absurd h1 (not_mem_of_schemeOk h2 (by decide))
      · have h2 := hn '#' h1
        simp [netlocStop] at h2
      · exact hph h1
      · exact urlparseL_params_no_hash _ h1
      · rw [urlparseL_query_eq] at h1
        exact urlsplitL_query_no_hash _ h1
      all_goals exact absurd h1 (by decide)
  · injection h with h
    rename_i hcon
    rw [contains_eq_true_iff] at hcon
    rw [← h]
    exact hcon

theorem normalize_urlX_some {o : ParseOracles} {s y : List Char}
    (h : normalize_urlX o s = some y) :
    ∃ t, '#' ∉ t ∧ (∀ c ∈ t, isUnsafeByte c = false) ∧
      y = normalize_url t := by
  unfold normalize_urlX at h
  rcases hd : urldefragX o s with - | s1
  · rw [hd] at h
    simp at h
  · rw [hd] at h
    rw [Option.some_bind] at h
    rw [urlparseX_eq] at h
    split at h
    · simp at h
    · simp only [Option.map_some'] at h
      injection h with h
      have hnh : '#' ∉ cleanseUrl s1 :=
        fun hm => urldefragX_no_hash_out hd (cleanse_subset s1 '#' hm)
      refine ⟨cleanseUrl s1, hnh, cleanse_clean s1, ?_⟩
      rw [← h]
      unfold normalize_url
      dsimp only
      rw [show urldefragL (cleanseUrl s1) = cleanseUrl s1 from by
        unfold urldefragL
        rw [if_neg]
        rw [contains_eq_true_iff]
        exact hnh]

theorem urlsplitL_canon_netloc {sch : List Char} (X : List Char)
    (hok : schemeOk sch = true) :
    (urlsplitL (sch ++ ':' :: '/' :: '/' :: X)).netloc =
      X.takeWhile (fun c => !netlocStop c) := by
  unfold urlsplitL
  dsimp only
  rw [splitScheme_cons ('/' :: '/' :: X) hok]
  unfold splitNetloc
  rw [if_pos (show ('/' :: '/' :: X).take 2 = ['/', '/'] from rfl)]
  rfl

theorem normalizeX_canon_eq (o : ParseOracles) {sch n p : List Char}
    (hok : schemeOk sch = true) (hn : ∀ c ∈ n, netlocStop c = false)
    (hph : '#' ∉ p)
    (hclean : ∀ c ∈ sch ++ ':' :: '/' :: '/' :: (n ++ p),
      isUnsafeByte c = false) :
    normalize_urlX o (sch ++ ':' :: '/' :: '/' :: (n ++ p)) =
      if netlocRejected o ((n ++ p).takeWhile (fun c => !netlocStop c)) = true
      then none
      else some (normalize_url (sch ++ ':' :: '/' :: '/' :: (n ++ p))) := by
  have hhash : '#' ∉ sch ++ ':' :: '/' :: '/' :: (n ++ p) :=
    hash_not_mem_canon hok hn hph
  have hcl : cleanseUrl (sch ++ ':' :: '/' :: '/' :: (n ++ p)) =
      sch ++ ':' :: '/' :: '/' :: (n ++ p) := by
    obtain ⟨c, cs, hsch, hal⟩ := schemeOk_head hok
    rw [hsch, List.cons_append]
    exact cleanseUrl_cons (isAlpha_not_c0 hal)
      (by rw [← List.cons_append, ← hsch]; exact hclean)
  unfold normalize_urlX
  rw [urldefragX_no_hash hhash, Option.some_bind, urlparseX_eq, hcl,
    urlsplitL_canon_netloc _ hok]
  split
  · rfl
  · rw [Option.map_some']
    congr 1
    unfold normalize_url
    dsimp only
    rw [show urldefragL (sch ++ ':' :: '/' :: '/' :: (n ++ p)) =
        sch ++ ':' :: '/' :: '/' :: (n ++ p) from by
      unfold urldefragL
      rw [if_neg]
      rw [contains_eq_true_iff]
      exact hhash]

theorem normalizeX_step_safe (o : ParseOracles) {sch n p : List Char}
    (hc : CanonParts sch n p) (hlead : p.take 1 = ['/'])
    (hclean : ∀ c ∈ sch ++ ':' :: '/' :: '/' :: (n ++ p),
      isUnsafeByte c = false)
    (hrej : netlocRejected o
      ((n ++ p).takeWhile (fun c => !netlocStop c)) = false) :
    normalize_urlX o (sch ++ ':' :: '/' :: '/' :: (n ++ p)) =
      some (sch ++ ':' :: '/' :: '/' :: (n ++ p)) := by
  rw [normalizeX_canon_eq o hc.1 hc.2.2.1 hc.2.2.2.2.1 hclean]
  rw [if_neg (by rw [hrej]; exact Bool.false_ne_true)]
  rw [canon_fixed hc hlead]

/-- C5, counterexample: normalization is not idempotent: a bare host such
as `example.com` normalizes to `http://example.com` (the host text ends up
in the path position), which re-normalizes to `http://example.com/`. -/
theorem C5_not_idempotent :
    normalize_url (normalize_url (toL "example.com")) ≠
      normalize_url (toL "example.com") := by
  decide

/-- C5 (amended): one application of `normalize_url` need not be a fixed
point, and normalization is not even total: over the error-aware model of
`urllib.parse` (whose `urlsplit` can raise `ValueError`, modelled by
`none`, with the `ipaddress`/NFKC checks as oracles), the input `x[a`
normalizes to `http://x[a` on which a second application raises
`Invalid IPv6 URL`.  Whenever a second application does return a value,
that value is a fixed point of normalization, and every first-application
result is fragment-free and of the shape `scheme://netloc ++ path` with a
nonempty scheme and a nonempty path. -/
theorem C5_second_application_fixed (o : ParseOracles) (x y₁ y₂ : List Char)
    (h1 : normalize_urlX o x = some y₁)
    (h2 : normalize_urlX o y₁ = some y₂) :
    normalize_urlX o y₂ = some y₂ ∧
    normalize_urlX o (toL "x[a") = some (toL "http://x[a") ∧
    normalize_urlX o (toL "http://x[a") = none ∧
    '#' ∉ y₁ ∧
    ∃ sch n p, y₁ = sch ++ ':' :: '/' :: '/' :: (n ++ p) ∧
      sch ≠ [] ∧ p ≠ [] := by
  obtain ⟨t, hth, htc, hty⟩ := normalize_urlX_some h1
  obtain ⟨sch, n, p, heq, hc, hd⟩ := normalize_shape t
  have hy₁ : y₁ = sch ++ ':' :: '/' :: '/' :: (n ++ p) := by rw [hty, heq]
  have hcy₁ : ∀ c ∈ sch ++ ':' :: '/' :: '/' :: (n ++ p),
      isUnsafeByte c = false := by
    rw [← hy₁, hty]
    exact normalize_url_clean htc
  refine ⟨?_, rfl, rfl, ?_, ?_⟩
  · rw [hy₁] at h2
    rw [normalizeX_canon_eq o hc.1 hc.2.2.1 hc.2.2.2.2.1 hcy₁] at h2
    rcases Bool.eq_false_or_eq_true (netlocRejected o
        ((n ++ p).takeWhile (fun c => !netlocStop c))) with hB | hB
    · rw [if_pos hB] at h2
      exact absurd h2 (by simp)
    · rw [if_neg (by rw [hB]; exact Bool.false_ne_true)] at h2
      have hy₂ : y₂ = normalize_url (sch ++ ':' :: '/' :: '/' :: (n ++ p)) := by
        injection h2 with h2'
        exact h2'.symm
      rcases hd with hn0 | hp1
      · subst hn0
        simp only [List.nil_append] at hy₂ hB hcy₁ hy₁
        obtain ⟨hstep, hc2, hp2⟩ := canon_step hc
        have hy₂' : y₂ = sch ++ ':' :: '/' :: '/' ::
            (p.takeWhile (fun c => !netlocStop c) ++
              (if p.dropWhile (fun c => !netlocStop c) = [] then ['/']
               else p.dropWhile (fun c => !netlocStop c))) := by
          rw [hy₂, hstep]
        have hcy₂ : ∀ c ∈ y₂, isUnsafeByte c = false := by
          rw [hy₂]
          exact normalize_url_clean hcy₁
        have hnl : ((p.takeWhile (fun c => !netlocStop c)) ++
            (if p.dropWhile (fun c => !netlocStop c) = [] then ['/']
             else p.dropWhile (fun c => !netlocStop c))).takeWhile
              (fun c => !netlocStop c) =
            p.takeWhile (fun c => !netlocStop c) := by
          have h1 := takeWhile_append_all (fun c => !netlocStop c)
            (a := p.takeWhile (fun c => !netlocStop c))
            (fun x hx => by simpa using List.mem_takeWhile_imp hx)
            (if p.dropWhile (fun c => !netlocStop c) = [] then ['/']
             else p.dropWhile (fun c => !netlocStop c))
          rw [h1.1]
          have h2 : (if p.dropWhile (fun c => !netlocStop c) = [] then ['/']
              else p.dropWhile (fun c => !netlocStop c)).takeWhile
                (fun c => !netlocStop c) = [] := by
            rcases hcc : (if p.dropWhile (fun c => !netlocStop c) = []
                then ['/'] else p.dropWhile (fun c => !netlocStop c)) with
              - | ⟨c0, t0⟩
            · rfl
            · rw [hcc] at hp2
              have hc0 : c0 = '/' := by simpa using hp2
              rw [List.takeWhile_cons, if_neg (by rw [hc0]; decide)]
          rw [h2, List.append_nil]
        rw [hy₂']
        exact normalizeX_step_safe o hc2 hp2
          (by rw [← hy₂']; exact hcy₂) (by rw [hnl]; exact hB)
      · have hfix := canon_fixed hc hp1
        have hyy : y₂ = y₁ := by rw [hy₂, hfix, ← hy₁]
        rw [hyy, hy₁]
        exact normalizeX_step_safe o hc hp1 hcy₁ hB
  · rw [hy₁]
    exact hash_not_mem_canon hc.1 hc.2.2.1 hc.2.2.2.2.1
  · exact ⟨sch, n, p, hy₁, schemeOk_ne_nil hc.1, hc.2.2.2.1⟩

/-- C5, witness: a concrete run of the conditional fixed point — the bare
host `example.com` normalizes (without error) to `http://example.com`,
which re-normalizes to `http://example.com/`, a fixed point. -/
theorem C5_second_application_fixed_witness :
    normalize_urlX noOracles (toL "example.com") =
      some (toL "http://example.com") ∧
    normalize_urlX noOracles (toL "http://example.com") =
      some (toL "http://example.com/") ∧
    normalize_urlX noOracles (toL "http://example.com/") =
      some (toL "http://example.com/") :=
  ⟨by decide, by decide,
    (C5_second_application_fixed noOracles (toL "example.com")
      (toL "http://example.com") (toL "http://example.com/")
      (by decide) (by decide)).1⟩

/-- C10, counterexample: two URLs that differ only in their fragment need
not normalize identically — stripping the fragment goes through
`urlparse`/`urlunparse`, which rewrites an empty-netloc URL whose path
starts with `//`. -/
theorem C10_fragment_not_identified :
    normalize_url (toL "http:////x#f") ≠ normalize_url (toL "http:////x") := by
  decide

/-- C10 (amended): the query component is silently discarded — appending
`?q` to any query-free, fragment-free URL does not change its normal form
(so two URLs differing only in their query strings normalize identically
and are deduplicated as one resource), and no normalized URL contains
`?`. -/
theorem C10_query_discarded (base q : List Char) (hb : '?' ∉ base)
    (hbh : '#' ∉ base) (hq : '#' ∉ q) :
    normalize_url (base ++ '?' :: q) = normalize_url base ∧
    ∀ s, '?' ∉ normalize_url s := by
  refine ⟨normalize_drop_query base q hb hbh hq, ?_⟩
  intro s
  obtain ⟨sch, n, p, heq, hc, -⟩ := normalize_shape s
  rw [heq]
  intro hm
  simp only [List.mem_append, List.mem_cons] at hm
  rcases hm with hm | hm | hm | hm | hm | hm
  · exact absurd (schemeOk_all hc.1 _ hm) (by decide)
  · simp at hm
  · simp at hm
  · simp at hm
  · have := hc.2.2.1 '?' hm
    simp [netlocStop] at this
  · exact hc.2.2.2.2.2.1 hm

/-- C10, witness: dropping a concrete query string. -/
theorem C10_query_discarded_witness :
    normalize_url (toL "http://example.com/a" ++ '?' :: toL "x=1") =
      normalize_url (toL "http://example.com/a") :=
  (C10_query_discarded (toL "http://example.com/a") (toL "x=1")
    (by decide) (by decide) (by decide)).1

end Crawler
